import Mathlib

/-!
# Daijirin entry extraction (`daijirin.go`)

A shallow embedding of `daijirinExtractor.extractTerms`, `exportTags`,
`exportRules` and the table of `getFontNarrow`.  Go strings are modelled as lists
of Unicode characters.  The
six compiled patterns are kept as regular-expression syntax trees and are run
by a small leftmost-first matcher (the match priorities of Go's `regexp`
package: earlier alternative first, greedy repetition longest first, leftmost
start position first).
-/

set_option maxRecDepth 100000

namespace Daijirin

/-! ## Regular expressions -/

/-- Syntax of the regular-expression fragment used by the six patterns. -/
inductive Regex where
  /-- one character of a class (a literal, `.`, `[...]` or `[^...]`) -/
  | cls (p : Char → Bool)
  /-- concatenation -/
  | seq (a b : Regex)
  /-- alternation `a|b`, the left branch preferred -/
  | alt (a b : Regex)
  /-- greedy `a*` -/
  | star (a : Regex)
  /-- greedy `a+` -/
  | plus (a : Regex)
  /-- greedy `a?` -/
  | opt (a : Regex)
  /-- capturing group number `i` -/
  | group (i : Nat) (a : Regex)

/-- Text of the numbered capturing groups; a group that took no part in the
match holds the empty string, as in the slices returned by `FindStringSubmatch`. -/
abbrev Caps := Nat → List Char

/-- No group has matched yet. -/
def noCaps : Caps := fun _ => []

/-- Record the text of group `i`. -/
def Caps.set (c : Caps) (i : Nat) (v : List Char) : Caps :=
  fun j => if j = i then v else c j

/-- Greedy iteration of `step`: one more iteration is preferred to stopping,
and an iteration has to consume at least one character.  The counter bounds
the number of iterations by the length of the input. -/
def starLoop (step : List Char → Caps → List (List Char × Caps)) :
    Nat → List Char → Caps → List (List Char × Caps)
  | 0, s, c => [(s, c)]
  | n + 1, s, c =>
    ((step s c).filter (fun r => decide (r.1.length < s.length))).flatMap
      (fun r => starLoop step n r.1 r.2) ++ [(s, c)]

/-- All ways in which the pattern matches at the start of `s`, most preferred
first; each is the unconsumed rest of `s` with the groups captured so far. -/
def run : Regex → List Char → Caps → List (List Char × Caps)
  | .cls p, s, c =>
    match s with
    | [] => []
    | x :: xs => if p x then [(xs, c)] else []
  | .seq a b, s, c => (run a s c).flatMap (fun r => run b r.1 r.2)
  | .alt a b, s, c => run a s c ++ run b s c
  | .star a, s, c => starLoop (run a) s.length s c
  | .plus a, s, c => (run a s c).flatMap (fun r => starLoop (run a) r.1.length r.1 r.2)
  | .opt a, s, c => run a s c ++ [(s, c)]
  | .group i a, s, c =>
    (run a s c).map (fun r => (r.1, r.2.set i (s.take (s.length - r.1.length))))

/-- One match inside a string: the text before it, the matched text, the text
after it and the captured groups. -/
structure Match where
  pre : List Char
  whole : List Char
  post : List Char
  caps : Caps

/-- The preferred match starting exactly at the start of `s`. -/
def matchAt (re : Regex) (s : List Char) : Option Match :=
  (run re s noCaps).head?.map
    (fun r => { pre := [], whole := s.take (s.length - r.1.length), post := r.1, caps := r.2 })

/-- The leftmost match of the pattern in `s` (also tried at the very end of `s`). -/
def search (re : Regex) : List Char → Option Match
  | [] => matchAt re []
  | x :: xs =>
    match matchAt re (x :: xs) with
    | some m => some m
    | none => (search re xs).map (fun m => { m with pre := x :: m.pre })

/-- The method `Regexp.MatchString`. -/
def MatchString (re : Regex) (s : List Char) : Bool :=
  (search re s).isSome

/-- The method `Regexp.FindStringSubmatch`: `none` is the nil slice, index 0 is
the whole match and index `i` the text of group `i`. -/
def FindStringSubmatch (re : Regex) (s : List Char) : Option (Nat → List Char) :=
  (search re s).map (fun m i => if i = 0 then m.whole else m.caps i)

/-- The loop of `Regexp.replaceAll`.  `pend` is the text between the end of the
last match and the search position, `s` the text from the search position on,
`atStart` tells that the search position is 0. -/
def replaceLoop (re : Regex) (repl : Match → List Char) :
    Nat → Bool → List Char → List Char → List Char
  | 0, _, pend, s => pend ++ s
  | n + 1, atStart, pend, s =>
    match search re s with
    | none => pend ++ s
    | some m =>
      let out := pend ++ m.pre ++
        (if 0 < pend.length + m.pre.length + m.whole.length ∨ (atStart = true ∧ m.pre = [])
          then repl m else [])
      if m.pre = [] ∧ m.whole = [] then
        match s with
        | [] => out
        | x :: xs => out ++ replaceLoop re repl n false [x] xs
      else out ++ replaceLoop re repl n false [] m.post

/-- A replacement template: literal text and `$n` references. -/
inductive Tmpl where
  | lit (s : List Char)
  | ref (n : Nat)

/-- The method `Regexp.Expand` on a parsed template. -/
def expand (m : Match) (t : List Tmpl) : List Char :=
  t.flatMap (fun x =>
    match x with
    | .lit s => s
    | .ref n => if n = 0 then m.whole else m.caps n)

/-- The method `Regexp.ReplaceAllLiteralString`. -/
def ReplaceAllLiteralString (re : Regex) (src repl : List Char) : List Char :=
  replaceLoop re (fun _ => repl) (src.length + 1) true [] src

/-- The method `Regexp.ReplaceAllString`, the template given parsed. -/
def ReplaceAllString (re : Regex) (src : List Char) (repl : List Tmpl) : List Char :=
  replaceLoop re (fun m => expand m repl) (src.length + 1) true [] src

/-- The function `strings.Split` for a separator of one character. -/
def Split (sep : Char) : List Char → List (List Char)
  | [] => [[]]
  | x :: xs =>
    if x = sep then [] :: Split sep xs
    else
      match Split sep xs with
      | [] => [[x]]
      | p :: ps => (x :: p) :: ps

/-! ## The compiled patterns of `makeDaijirinExtractor` -/

/-- A literal character. -/
def chr (c : Char) : Regex := .cls (fun x => x == c)

/-- The pattern `.`: any character but a line break. -/
def dot : Regex := .cls (fun x => x != '\n')

/-- The class `[^（【〖]`. -/
def notOpen (x : Char) : Bool := !(x == '（' || x == '【' || x == '〖')

/-- The class `[-・]`. -/
def phonChar (x : Char) : Bool := x == '-' || x == '・'

/-- Pattern `([^（【〖]+)(?:【(.*)】)?(?:〖(.*)〗)?(?:（(.*)）)?`. -/
def partsExp : Regex :=
  .seq (.group 1 (.plus (.cls notOpen)))
    (.seq (.opt (.seq (chr '【') (.seq (.group 2 (.star dot)) (chr '】'))))
      (.seq (.opt (.seq (chr '〖') (.seq (.group 3 (.star dot)) (chr '〗'))))
        (.opt (.seq (chr '（') (.seq (.group 4 (.star dot)) (chr '）'))))))

/-- Pattern `[-・]+`. -/
def phonExp : Regex := .plus (.cls phonChar)

/-- Pattern `\((.*)\)`. -/
def variantExp : Regex := .seq (chr '(') (.seq (.group 1 (.star dot)) (chr ')'))

/-- Pattern `（(.*)）`. -/
def annotExp : Regex := .seq (chr '（') (.seq (.group 1 (.star dot)) (chr '）'))

/-- Pattern `(動.五)|(動..二)`. -/
def v5Exp : Regex :=
  .alt (.group 1 (.seq (chr '動') (.seq dot (chr '五'))))
    (.group 2 (.seq (chr '動') (.seq dot (.seq dot (chr '二')))))

/-- Pattern `動..一`. -/
def v1Exp : Regex := .seq (chr '動') (.seq dot (.seq dot (chr '一')))

/-! ## Records -/

/-- The input entry `epwingEntry`. -/
structure epwingEntry where
  Heading : List Char
  Text : List Char

/-- Modelled from the spec: the record type `dbTerm` is declared outside
`daijirin.go`; these are the five fields the extractor reads and writes
(expression, reading, glossary, tags, rules). -/
structure dbTerm where
  Expression : List Char := []
  Reading : List Char := []
  Glossary : List (List Char) := []
  Tags : List (List Char) := []
  Rules : List (List Char) := []
deriving DecidableEq

/-- Modelled from the spec: the add-if-absent insertion behind `addTags` and
`addRules` (adding a string that is already present is a no-op). -/
def appendStringUnique (target : List (List Char)) (s : List Char) : List (List Char) :=
  if s ∈ target then target else target ++ [s]

/-- Modelled from the spec: `dbTerm.addTags`, declared outside `daijirin.go`,
an idempotent add-if-absent on the tag set. -/
def dbTerm.addTags (term : dbTerm) (tag : List Char) : dbTerm :=
  { term with Tags := appendStringUnique term.Tags tag }

/-- Modelled from the spec: `dbTerm.addRules`, declared outside `daijirin.go`,
an idempotent add-if-absent on the rule set. -/
def dbTerm.addRules (term : dbTerm) (rule : List Char) : dbTerm :=
  { term with Rules := appendStringUnique term.Rules rule }

/-! ## Tag classification -/

/-- The fixed vocabulary `parsed` of `exportTags`, in source order. -/
def parsed : List (List Char) :=
  ["並立助", "代", "係助", "副", "副助", "助動", "動", "動ア上一", "動ア下一", "動ア下二",
   "動ア五［ハ四］", "動カ上一", "動カ上二", "動カ下一", "動カ下二", "動カ五", "動カ五［四］",
   "動カ四", "動カ変", "動ガ上一", "動ガ上二", "動ガ下一", "動ガ下二", "動ガ五", "動ガ五［四］",
   "動ガ四", "動サ上一", "動サ下一", "動サ下二", "動サ五", "動サ五［四］", "動サ四", "動サ変",
   "動サ特活", "動ザ上一", "動ザ上二", "動ザ下一", "動ザ下二", "動タ上一", "動タ上二",
   "動タ下一", "動タ下二", "動タ五［四］", "動タ四", "動ダ上二", "動ダ下一", "動ダ下二",
   "動ナ上一", "動ナ下一", "動ナ下二", "動ナ五", "動ナ五［四］", "動ハ上一", "動ハ上二",
   "動ハ下一", "動ハ下二", "動ハ四", "動ハ特活", "動バ上一", "動バ上二", "動バ下一",
   "動バ下二", "動バ五［四］", "動バ四", "動マ上一", "動マ上二", "動マ下一", "動マ下二",
   "動マ五", "動マ五［四］", "動マ四", "動マ特活", "動マ特活", "動ヤ上一", "動ヤ上二",
   "動ヤ下二", "動ラ上一", "動ラ上二", "動ラ下一", "動ラ下二", "動ラ五", "動ラ五［四］",
   "動ラ四", "動ラ変", "動ラ特活", "動ワ上一", "動ワ上二", "動ワ下一", "動ワ下二", "動ワ五",
   "動ワ五［ハ四］", "動五［四］", "動特活", "動詞五［四］段型活用", "名", "形", "形ク",
   "形シク", "形動", "形動タリ", "形動ナリ", "感", "接助", "接尾", "接続", "接頭", "枕詞",
   "格助", "終助", "連体", "連語", "間投助"].map String.toList

/-- The method `exportTags`: every candidate equal to a vocabulary entry is added. -/
def exportTags (term : dbTerm) (tags : List (List Char)) : dbTerm :=
  tags.foldl (fun t tag => parsed.foldl (fun t p => if tag = p then t.addTags tag else t) t) term

/-- The method `exportRules`: the ordered if / else-if chain, once per candidate. -/
def exportRules (term : dbTerm) (tags : List (List Char)) : dbTerm :=
  tags.foldl (fun t tag =>
    if tag = "形".toList then
      (t.addTags "adj-i".toList).addRules "adj-i".toList
    else if MatchString v5Exp tag then
      (t.addTags "v5".toList).addRules "v5".toList
    else if MatchString v1Exp tag then
      (t.addTags "v1".toList).addRules "v1".toList
    else t) term

/-! ## The extractor -/

/-- Lines 59-66: the surface forms of one candidate of the expression field. -/
def expandSplit (split : List Char) : List (List Char) :=
  let splitInc := ReplaceAllString variantExp split [.ref 1]
  if split ≠ splitInc then
    [splitInc, ReplaceAllLiteralString variantExp split []]
  else [splitInc]

/-- Lines 56-67: the expression list built from group 2 of the heading match. -/
def expressionsOf (expression : List Char) : List (List Char) :=
  if 0 < expression.length then
    (Split '・' (ReplaceAllLiteralString annotExp expression [])).flatMap expandSplit
  else []

/-- Lines 69-72: the reading list built from group 1 of the heading match. -/
def readingsOf (reading : List Char) : List (List Char) :=
  if 0 < reading.length then [ReplaceAllLiteralString phonExp reading []] else []

/-- Lines 74-81: the candidate tokens found in the body text. -/
def tagsOf (text : List Char) : List (List Char) :=
  (Split '\n' text).flatMap (fun split =>
    match FindStringSubmatch annotExp split with
    | some m => Split '・' (m 1)
    | none => [])

/-- Lines 86-94 and 100-109: one record, classified. -/
def mkTerm (expression reading text : List Char) (tags : List (List Char)) : dbTerm :=
  exportRules (exportTags { Expression := expression, Reading := reading, Glossary := [text] } tags) tags

/-- Lines 83-114: the record builder. -/
def buildTerms (expressions readings : List (List Char)) (text : List Char)
    (tags : List (List Char)) : List dbTerm :=
  if expressions.length = 0 then
    readings.map (fun reading => mkTerm reading [] text tags)
  else
    expressions.flatMap (fun expression =>
      readings.map (fun reading => mkTerm expression reading text tags))

/-- The method `extractTerms`; the nil slice is the empty list. -/
def extractTerms (entry : epwingEntry) : List dbTerm :=
  match FindStringSubmatch partsExp entry.Heading with
  | none => []
  | some m =>
    buildTerms (expressionsOf (m 2)) (readingsOf (m 1)) entry.Text (tagsOf entry.Text)

/-! ## Auxiliary definitions for the proofs -/

/-- The rests left by a greedy run of class `p` at the start of a string, the
longest run first. -/
def starCls (p : Char → Bool) : List Char → List (List Char)
  | [] => [[]]
  | x :: xs => if p x then starCls p xs ++ [x :: xs] else [x :: xs]

/-- The ways to close a bracket: every split `xs = mid ++ b :: rest` with no
line break in `mid`, the longest `mid` first. -/
def closers (b : Char) : List Char → List (List Char × List Char)
  | [] => []
  | x :: xs =>
    (if x != '\n' then (closers b xs).map (fun r => (x :: r.1, r.2)) else []) ++
      (if x == b then [([], xs)] else [])

/-- The pattern shape `a(.*)b` with the group numbered `k`. -/
def bracketed (a : Char) (k : Nat) (b : Char) : Regex :=
  .seq (chr a) (.seq (.group k (.star dot)) (chr b))


/-- The part of `partsExp` after group 1: the three optional bracketed fields. -/
def fieldsExp : Regex :=
  .seq (.opt (bracketed '【' 2 '】'))
    (.seq (.opt (bracketed '〖' 3 '〗')) (.opt (bracketed '（' 4 '）')))

/-- Group 2 of the heading match, read off the text that follows the reading
field: the text between a directly following `【` and the last `】` on the same
line, empty when there is none. -/
def secondField : List Char → List Char
  | [] => []
  | y :: ys => if y = '【' then ((closers '】' ys).head?.map (fun r => r.1)).getD [] else []

/-- In the words of the spec: the token contains a substring `動cd一`, with `c`
and `d` any characters other than a line break. -/
def hasOneGrade (t : List Char) : Prop :=
  ∃ pre c d post, t = pre ++ '動' :: c :: d :: '一' :: post ∧ c ≠ '\n' ∧ d ≠ '\n'

/-- In the words of the spec: the token contains a substring `動c五` or `動cd二`,
with `c` and `d` any characters other than a line break. -/
def hasFiveGrade (t : List Char) : Prop :=
  (∃ pre c post, t = pre ++ '動' :: c :: '五' :: post ∧ c ≠ '\n') ∨
    (∃ pre c d post, t = pre ++ '動' :: c :: d :: '二' :: post ∧ c ≠ '\n' ∧ d ≠ '\n')

/-- The characters that the parts of an expression field are free of in the
claims about headings of a given shape: `・ （ ） ( ) 【 】 〖 〗` and the line break. -/
def special : List Char := ['・', '（', '）', '(', ')', '【', '】', '〖', '〗', '\n']

/-- Group 1 of the heading match (`matches[1]`), empty when there is no match. -/
def readingField (h : List Char) : List Char :=
  match FindStringSubmatch partsExp h with
  | some m => m 1
  | none => []

/-- Group 2 of the heading match (`matches[2]`), empty when there is no match. -/
def expressionField (h : List Char) : List Char :=
  match FindStringSubmatch partsExp h with
  | some m => m 2
  | none => []

/-! ## Further definitions: body lines, checked indexing, the narrow glyph table -/

/-- Lines 76-80: the candidate tokens contributed by one line of the body. -/
def lineTags (split : List Char) : List (List Char) :=
  match FindStringSubmatch annotExp split with
  | some m => Split '・' (m 1)
  | none => []

/-- The method `Regexp.NumSubexp`: the number of capturing groups of a pattern. -/
def NumSubexp : Regex → Nat
  | .cls _ => 0
  | .seq a b => NumSubexp a + NumSubexp b
  | .alt a b => NumSubexp a + NumSubexp b
  | .star a => NumSubexp a
  | .plus a => NumSubexp a
  | .opt a => NumSubexp a
  | .group _ a => NumSubexp a + 1

/-- The slice returned by `Regexp.FindStringSubmatch`: the whole match followed
by one string for each capturing group, `1 + NumSubexp` strings in all. -/
def submatchSlice (re : Regex) (s : List Char) : Option (List (List Char)) :=
  (FindStringSubmatch re s).map (fun m => (List.range (NumSubexp re + 1)).map m)

/-- An index expression `xs[i]` on a slice; `none` stands for the run-time panic
of an index out of range. -/
def index (xs : List (List Char)) (i : Nat) : Option (List Char) :=
  if i < xs.length then some (xs.getD i []) else none

/-- Lines 74-81 with the index expression `matches[1]` checked. -/
def tagsOfChecked (text : List Char) : Option (List (List Char)) :=
  (Split '\n' text).foldl
    (fun acc split =>
      acc.bind (fun tags =>
        match submatchSlice annotExp split with
        | some m => (index m 1).map (fun g => tags ++ Split '・' g)
        | none => some tags))
    (some [])

/-- The method `extractTerms` with the index expressions `matches[2]`,
`matches[1]` (heading) and `matches[1]` (body lines) checked, in source order. -/
def extractTermsChecked (entry : epwingEntry) : Option (List dbTerm) :=
  match submatchSlice partsExp entry.Heading with
  | none => some []
  | some m =>
    (index m 2).bind (fun expression =>
      (index m 1).bind (fun reading =>
        (tagsOfChecked entry.Text).map (fun tags =>
          buildTerms (expressionsOf expression) (readingsOf reading) entry.Text tags)))

/-- The map literal returned by `getFontNarrow`, as the list of its key and
value pairs in source order. -/
def getFontNarrow : List (Int × List Char) :=
  [(49441, "á"), (49442, "à"), (49443, "â"), (49444, "ä"), (49445, "ã"), (49446, "ā"),
   (49447, "é"), (49448, "è"), (49449, "ê"), (49450, "ë"), (49451, "ē"), (49452, "í"),
   (49453, "î"), (49454, "ï"), (49455, "ñ"), (49456, "ó"), (49457, "ò"), (49458, "ô"),
   (49459, "ö"), (49460, "ř"), (49461, "ú"), (49462, "ü"), (49463, "~"), (49464, "ç"),
   (49465, "ˇ"), (49466, "ɡ"), (49467, "ŋ"), (49468, "ʒ"), (49469, "ʃ"), (49470, "ɔ"),
   (49471, "ð"), (49472, "Á"), (49473, "Í"), (49474, "Ú"), (49475, "É"), (49476, "Ó"),
   (49477, "À"), (49478, "È"), (49479, "Ò"), (49480, "ì"), (49481, "ù"), (49482, "ý"),
   (49483, "ỳ"), (49484, "ɑ"), (49485, "ə"), (49487, "ɛ"), (49488, "θ"), (49489, "ʌ"),
   (49490, "ɑ́"), (49491, "ə́"), (49492, "ɔ́"), (49493, "ɛ́"), (49494, "ʌ́"), (49495, "ɑ̀"),
   (49496, "ə̀"), (49497, "ɔ̀"), (49498, "ɛ̀"), (49499, "ʌ̀"), (49500, "æ"), (49501, "ǽ"),
   (49502, "æ̀"), (49503, "Æ"), (49504, "ɑ̃"), (49505, "å"), (49506, "˘"), (49507, "ă"),
   (49508, "ŏ"), (49509, "ĭ"), (49510, "V́"), (49511, "T́"), (49513, "ɔ̃"), (49527, "ć"),
   (49531, "û"), (49532, "Ý"), (49534, "Ḿ"), (49700, "ō"), (49701, "ğ"), (49705, "Ḍ"),
   (49710, "Ḥ"), (49717, "Ṛ"), (49719, "Ṣ"), (49722, "Ẓ"), (49724, "ą"), (49728, "ḍ"),
   (49730, "ę"), (49734, "ḥ"), (49736, "ị"), (49740, "ṃ"), (49742, "ṇ"), (49747, "ṛ"),
   (49749, "ş"), (49750, "ṣ"), (49752, "ṭ"), (49757, "ẓ"), (49758, "İ"), (49759, "ṁ"),
   (49760, "ṅ"), (49761, "ż"), (49762, "Ś"), (49763, "ć"), (49764, "ń"), (49765, "ś"),
   (49766, "ý"), (49767, "ź"), (49768, "ì"), (49769, "Ä"), (49770, "Ö"), (49771, "Ü"),
   (49772, "ÿ"), (49773, "Â"), (49775, "û"), (49776, "Ā"), (49777, "Ē"), (49778, "Ī"),
   (49779, "Ō"), (49780, "Ū"), (49781, "ī"), (49782, "n̄"), (49783, "p̄"), (49784, "ū"),
   (49785, "ȳ"), (49786, "Ł"), (49787, "ł"), (49788, "ø"), (49789, "ĩ"), (49790, "õ"),
   (49955, "º"), (49956, "½"), (49958, "¹"), (49959, "²"), (49960, "¾"), (49961, "³"),
   (49972, "ɟ"), (50010, "g̀"), (50027, "ĕ"), (50028, "Č"), (50029, "Š"), (50030, "ǎ"),
   (50031, "č"), (50032, "ě"), (50033, "ň"), (50034, "ř"), (50035, "š"), (50036, "ž"),
   (50037, "ヰ"), (50038, "ヱ"), (50039, "ɯ̈"), (50040, "ɰ"), (50042, "ʔ"), (50043, "ɦ"),
   (50044, "ß"), (50209, "ɲ"), (50210, "ː")].map (fun p => (p.1, p.2.toList))

/-- A map index expression `v, ok := table[code]`. -/
def lookup (table : List (Int × List Char)) (code : Int) : Option (List Char) :=
  List.lookup code table

/-! ## The matcher on the pattern shapes in use -/

theorem run_cls_nil (p : Char → Bool) (c : Caps) : run (.cls p) [] c = [] := rfl

theorem run_cls_cons (p : Char → Bool) (x : Char) (xs : List Char) (c : Caps) :
    run (.cls p) (x :: xs) c = if p x then [(xs, c)] else [] := rfl

theorem run_seq (a b : Regex) (s : List Char) (c : Caps) :
    run (.seq a b) s c = (run a s c).flatMap (fun r => run b r.1 r.2) := rfl

theorem run_alt (a b : Regex) (s : List Char) (c : Caps) :
    run (.alt a b) s c = run a s c ++ run b s c := rfl

theorem run_star (a : Regex) (s : List Char) (c : Caps) :
    run (.star a) s c = starLoop (run a) s.length s c := rfl

theorem run_plus (a : Regex) (s : List Char) (c : Caps) :
    run (.plus a) s c =
      (run a s c).flatMap (fun r => starLoop (run a) r.1.length r.1 r.2) := rfl

theorem run_opt (a : Regex) (s : List Char) (c : Caps) :
    run (.opt a) s c = run a s c ++ [(s, c)] := rfl

theorem run_group (i : Nat) (a : Regex) (s : List Char) (c : Caps) :
    run (.group i a) s c =
      (run a s c).map (fun r => (r.1, r.2.set i (s.take (s.length - r.1.length)))) := rfl

theorem starLoop_zero (step : List Char → Caps → List (List Char × Caps)) (s : List Char)
    (c : Caps) : starLoop step 0 s c = [(s, c)] := rfl

theorem starLoop_succ (step : List Char → Caps → List (List Char × Caps)) (n : Nat)
    (s : List Char) (c : Caps) :
    starLoop step (n + 1) s c =
      ((step s c).filter (fun r => decide (r.1.length < s.length))).flatMap
        (fun r => starLoop step n r.1 r.2) ++ [(s, c)] := rfl

theorem starLoop_cls (p : Char → Bool) (c : Caps) :
    ∀ (n : Nat) (s : List Char), s.length ≤ n →
      starLoop (run (.cls p)) n s c = (starCls p s).map (fun r => (r, c)) := by
  intro n
  induction n with
  | zero =>
    intro s hs
    have : s = [] := List.length_eq_zero.mp (Nat.le_zero.mp hs)
    subst this
    simp [starLoop_zero, starCls]
  | succ n ih =>
    intro s hs
    cases s with
    | nil => simp [starLoop_succ, starCls, run_cls_nil]
    | cons x xs =>
      have hx : xs.length ≤ n := by simpa using hs
      by_cases hp : p x = true
      · simp [starLoop_succ, starCls, run_cls_cons, hp, ih xs hx]
      · simp [starLoop_succ, starCls, run_cls_cons, hp]

theorem run_star_cls (p : Char → Bool) (s : List Char) (c : Caps) :
    run (.star (.cls p)) s c = (starCls p s).map (fun r => (r, c)) := by
  rw [run_star, starLoop_cls p c s.length s (Nat.le_refl _)]

theorem run_plus_cls (p : Char → Bool) (x : Char) (xs : List Char) (c : Caps) :
    run (.plus (.cls p)) (x :: xs) c =
      if p x then (starCls p xs).map (fun r => (r, c)) else [] := by
  rw [run_plus, run_cls_cons]
  by_cases hp : p x = true
  · simp [hp, starLoop_cls p c xs.length xs (Nat.le_refl _)]
  · simp [hp]

theorem run_plus_cls_nil (p : Char → Bool) (c : Caps) :
    run (.plus (.cls p)) [] c = [] := by
  rw [run_plus, run_cls_nil]; rfl

theorem starCls_head (p : Char → Bool) (s : List Char) :
    (starCls p s).head? = some (s.dropWhile p) := by
  induction s with
  | nil => simp [starCls]
  | cons x xs ih =>
    by_cases hp : p x = true
    · simp [starCls, hp, List.dropWhile, ih]
    · simp [starCls, hp, List.dropWhile]

theorem run_bracketed_nil (a : Char) (k : Nat) (b : Char) (c : Caps) :
    run (bracketed a k b) [] c = [] := by
  simp [bracketed, run_seq, chr, run_cls_nil]

theorem run_bracketed_ne (a : Char) (k : Nat) (b : Char) (c : Caps) (x : Char)
    (xs : List Char) (hx : x ≠ a) :
    run (bracketed a k b) (x :: xs) c = [] := by
  simp [bracketed, run_seq, chr, run_cls_cons, hx]

theorem take_length_sub (pre r : List Char) :
    (pre ++ r).take ((pre ++ r).length - r.length) = pre := by
  simp

theorem closers_aux (b : Char) (k : Nat) (c : Caps) :
    ∀ (xs pre : List Char),
      ((starCls (fun x => x != '\n') xs).map
        (fun r => (r, c.set k ((pre ++ xs).take ((pre ++ xs).length - r.length))))).flatMap
          (fun r => run (chr b) r.1 r.2) =
      (closers b xs).map (fun r => (r.2, c.set k (pre ++ r.1))) := by
  intro xs
  induction xs with
  | nil => intro pre; simp [starCls, closers, chr, run_cls_nil]
  | cons x xs ih =>
    intro pre
    have h1 := ih (pre ++ [x])
    simp only [List.append_assoc, List.singleton_append] at h1
    by_cases hx : (x != '\n') = true
    · simp only [starCls, hx, if_true, List.map_append, List.flatMap_append, h1, closers,
        List.map_map]
      congr 1
      simp [chr, run_cls_cons]
      by_cases hb : x = b <;> simp [hb]
    · simp only [starCls, hx, closers]
      simp [chr, run_cls_cons]
      by_cases hb : x = b <;> simp [hb]

/-- A pattern of the shape `a(.*)b` at an opening `a`: one match for every closing
`b` on the same line, the last one first. -/
theorem run_bracketed_eq (a : Char) (k : Nat) (b : Char) (c : Caps) (xs : List Char) :
    run (bracketed a k b) (a :: xs) c =
      (closers b xs).map (fun r => (r.2, c.set k r.1)) := by
  have h := closers_aux b k c xs []
  simp only [List.nil_append] at h
  rw [← h]
  simp only [bracketed, run_seq, chr, run_cls_cons, run_group, run_star_cls, dot, beq_self_eq_true,
    if_true, List.flatMap_cons, List.flatMap_nil, List.append_nil, List.map_map]
  rfl

theorem closers_mem (b : Char) :
    ∀ (xs : List Char) (r : List Char × List Char), r ∈ closers b xs →
      xs = r.1 ++ b :: r.2 ∧ '\n' ∉ r.1 := by
  intro xs
  induction xs with
  | nil => intro r hr; simp [closers] at hr
  | cons x xs ih =>
    intro r hr
    simp only [closers, List.mem_append] at hr
    rcases hr with hr | hr
    · by_cases hx : (x != '\n') = true
      · simp only [hx, if_true, List.mem_map] at hr
        obtain ⟨r', hr', rfl⟩ := hr
        obtain ⟨h1, h2⟩ := ih r' hr'
        refine ⟨by simp [← h1], ?_⟩
        simp only [bne_iff_ne, ne_eq] at hx
        simp [h2, Ne.symm hx]
      · simp [hx] at hr
    · by_cases hb : (x == b) = true
      · simp only [hb, if_true, List.mem_singleton] at hr
        subst hr
        simp only [beq_iff_eq] at hb
        simp [hb]
      · simp [hb] at hr

theorem closers_eq_nil (b : Char) (hnl : b ≠ '\n') :
    ∀ (xs : List Char), b ∉ xs.takeWhile (fun x => x != '\n') → closers b xs = [] := by
  intro xs
  induction xs with
  | nil => intro _; rfl
  | cons x xs ih =>
    intro h
    by_cases hx : (x != '\n') = true
    · simp only [List.takeWhile_cons, hx, if_true, List.mem_cons, not_or] at h
      have hb : (x == b) = false := by
        simp only [beq_eq_false_iff_ne, ne_eq]
        exact fun e => h.1 e.symm
      simp [closers, hx, hb, ih h.2]
    · simp only [List.takeWhile_cons, hx] at h
      by_cases hb : x = b
      · subst hb
        simp [hnl] at hx
      · simp [closers, hx, hb]

theorem closers_head (b : Char) (rest : List Char) (hr : closers b rest = []) :
    ∀ (mid : List Char), '\n' ∉ mid →
      (closers b (mid ++ b :: rest)).head? = some (mid, rest) := by
  intro mid
  induction mid with
  | nil => intro _; simp [closers, hr]
  | cons y mid ih =>
    intro h
    simp only [List.mem_cons, not_or] at h
    have hy : (y != '\n') = true := by simpa using Ne.symm h.1
    simp [closers, hy, ih h.2]

/-! ### Searching -/

theorem search_cons_some (re : Regex) (x : Char) (xs : List Char) (m : Match)
    (h : matchAt re (x :: xs) = some m) : search re (x :: xs) = some m := by
  simp [search, h]

theorem search_cons_none (re : Regex) (x : Char) (xs : List Char)
    (h : matchAt re (x :: xs) = none) :
    search re (x :: xs) = (search re xs).map (fun m => { m with pre := x :: m.pre }) := by
  simp [search, h]

theorem search_skip (re : Regex) (s : List Char) :
    ∀ (P : List Char), (∀ x ∈ P, ∀ xs, matchAt re (x :: xs) = none) →
      search re (P ++ s) = (search re s).map (fun m => { m with pre := P ++ m.pre }) := by
  intro P
  induction P with
  | nil => intro _; simp
  | cons y P ih =>
    intro h
    have h1 := ih (fun x hx => h x (List.mem_cons_of_mem _ hx))
    rw [List.cons_append, search_cons_none re y (P ++ s) (h y (List.mem_cons_self _ _) _), h1]
    cases search re s <;> simp

theorem matchAt_bracketed_ne (a : Char) (k : Nat) (b : Char) (x : Char) (xs : List Char)
    (hx : x ≠ a) : matchAt (bracketed a k b) (x :: xs) = none := by
  simp [matchAt, run_bracketed_ne a k b noCaps x xs hx]

theorem matchAt_bracketed_nil (a : Char) (k : Nat) (b : Char) :
    matchAt (bracketed a k b) [] = none := by
  simp [matchAt, run_bracketed_nil]

theorem matchAt_bracketed_eq_none (a : Char) (k : Nat) (b : Char) (xs : List Char)
    (h : closers b xs = []) : matchAt (bracketed a k b) (a :: xs) = none := by
  simp [matchAt, run_bracketed_eq, h]

theorem matchAt_bracketed_eq_some (a : Char) (k : Nat) (b : Char) (xs mid rest : List Char)
    (h : (closers b xs).head? = some (mid, rest)) :
    matchAt (bracketed a k b) (a :: xs) =
      some { pre := [], whole := a :: mid ++ [b], post := rest, caps := noCaps.set k mid } := by
  have hm : (mid, rest) ∈ closers b xs := List.mem_of_mem_head? h
  obtain ⟨hxs, -⟩ := closers_mem b xs (mid, rest) hm
  simp only at hxs
  simp only [matchAt, run_bracketed_eq, List.head?_map, h, Option.map_some']
  have : (a :: xs).take ((a :: xs).length - rest.length) = a :: mid ++ [b] := by
    have := take_length_sub (a :: mid ++ [b]) rest
    simpa [hxs] using this
  rw [this]

theorem search_bracketed_none (a : Char) (k : Nat) (b : Char) :
    ∀ (s : List Char), a ∉ s → search (bracketed a k b) s = none := by
  intro s
  induction s with
  | nil => intro _; simp [search, matchAt_bracketed_nil]
  | cons x xs ih =>
    intro h
    simp only [List.mem_cons, not_or] at h
    rw [search_cons_none _ _ _ (matchAt_bracketed_ne a k b x xs (Ne.symm h.1)), ih h.2]
    rfl

theorem search_bracketed_some (a : Char) (k : Nat) (b : Char) (P xs mid rest : List Char)
    (hP : a ∉ P) (h : (closers b xs).head? = some (mid, rest)) :
    search (bracketed a k b) (P ++ a :: xs) =
      some { pre := P, whole := a :: mid ++ [b], post := rest, caps := noCaps.set k mid } := by
  rw [search_skip, search_cons_some _ _ _ _ (matchAt_bracketed_eq_some a k b xs mid rest h)]
  · simp
  · intro x hx xs
    exact matchAt_bracketed_ne a k b x xs (fun e => hP (e ▸ hx))

/-! ### Replacing -/

theorem replaceLoop_none (re : Regex) (repl : Match → List Char) (n : Nat) (b : Bool)
    (pend s : List Char) (h : search re s = none) :
    replaceLoop re repl n b pend s = pend ++ s := by
  cases n <;> simp [replaceLoop, h]

theorem replace_bracketed_once (a : Char) (k : Nat) (b : Char) (repl : Match → List Char)
    (P xs mid rest : List Char) (n : Nat) (at0 : Bool)
    (hP : a ∉ P) (h : (closers b xs).head? = some (mid, rest)) (hrest : a ∉ rest) :
    replaceLoop (bracketed a k b) repl (n + 1) at0 [] (P ++ a :: xs) =
      P ++ repl { pre := P, whole := a :: mid ++ [b], post := rest, caps := noCaps.set k mid }
        ++ rest := by
  simp [replaceLoop, search_bracketed_some a k b P xs mid rest hP h,
    replaceLoop_none _ _ _ _ _ _ (search_bracketed_none a k b rest hrest)]

/-! ### The heading pattern -/

theorem partsExp_eq : partsExp = .seq (.group 1 (.plus (.cls notOpen))) fieldsExp := rfl

theorem annotExp_eq : annotExp = bracketed '（' 1 '）' := rfl

theorem variantExp_eq : variantExp = bracketed '(' 1 ')' := rfl

theorem set_ne (c : Caps) (k j : Nat) (v : List Char) (h : j ≠ k) : c.set k v j = c j := by
  simp [Caps.set, h]

theorem set_eq (c : Caps) (k : Nat) (v : List Char) : c.set k v k = v := by
  simp [Caps.set]

theorem run_bracketed_frame (a : Char) (k : Nat) (b : Char) (s : List Char) (c : Caps)
    (r : List Char × Caps) (hr : r ∈ run (bracketed a k b) s c) (j : Nat) (hj : j ≠ k) :
    r.2 j = c j := by
  cases s with
  | nil => simp [run_bracketed_nil] at hr
  | cons x xs =>
    by_cases hx : x = a
    · subst hx
      rw [run_bracketed_eq] at hr
      simp only [List.mem_map] at hr
      obtain ⟨r', -, rfl⟩ := hr
      exact set_ne c k j r'.1 hj
    · simp [run_bracketed_ne a k b c x xs hx] at hr

theorem run_opt_bracketed_frame (a : Char) (k : Nat) (b : Char) (s : List Char) (c : Caps)
    (r : List Char × Caps) (hr : r ∈ run (.opt (bracketed a k b)) s c) (j : Nat) (hj : j ≠ k) :
    r.2 j = c j := by
  rw [run_opt, List.mem_append] at hr
  rcases hr with hr | hr
  · exact run_bracketed_frame a k b s c r hr j hj
  · simp only [List.mem_singleton] at hr
    subst hr
    rfl

theorem run_opt_ne_nil (a : Regex) (s : List Char) (c : Caps) : run (.opt a) s c ≠ [] := by
  rw [run_opt]; simp

theorem head?_opt (a : Regex) (s : List Char) (c : Caps) :
    (run (.opt a) s c).head? = some ((run a s c).head?.getD (s, c)) := by
  rw [run_opt]
  cases run a s c <;> simp

theorem head?_opt_bracketed_two (s : List Char) (c : Caps) (hc : c 2 = []) :
    ∃ r, (run (.opt (bracketed '【' 2 '】')) s c).head? = some r ∧ r.2 1 = c 1 ∧
      r.2 2 = secondField s := by
  rw [head?_opt]
  refine ⟨_, rfl, ?_⟩
  cases s with
  | nil => simp [run_bracketed_nil, secondField, hc]
  | cons y ys =>
    by_cases hy : y = '【'
    · subst hy
      rw [run_bracketed_eq, List.head?_map]
      cases hh : (closers '】' ys).head? with
      | none => simp [secondField, hh, hc]
      | some r' => simp [secondField, hh, Caps.set]
    · simp [run_bracketed_ne _ _ _ c y ys hy, secondField, hy, hc]

theorem head?_fieldsExp (s : List Char) (c : Caps) (hc : c 2 = []) :
    ∃ r, (run fieldsExp s c).head? = some r ∧ r.2 1 = c 1 ∧ r.2 2 = secondField s := by
  obtain ⟨r0, h0, h01, h02⟩ := head?_opt_bracketed_two s c hc
  -- the two remaining optional fields always match and leave groups 1 and 2 alone
  have hne : ∀ (t : List Char) (d : Caps),
      ∃ r, (run (.seq (.opt (bracketed '〖' 3 '〗')) (.opt (bracketed '（' 4 '）'))) t d).head?
        = some r ∧ r.2 1 = d 1 ∧ r.2 2 = d 2 := by
    intro t d
    rw [run_seq, List.head?_flatMap]
    obtain ⟨r3, h3⟩ : ∃ r3, (run (.opt (bracketed '〖' 3 '〗')) t d).head? = some r3 :=
      ⟨_, head?_opt _ _ _⟩
    have h3m := List.mem_of_mem_head? h3
    obtain ⟨r4, h4⟩ : ∃ r4, (run (.opt (bracketed '（' 4 '）')) r3.1 r3.2).head? = some r4 :=
      ⟨_, head?_opt _ _ _⟩
    have h4m := List.mem_of_mem_head? h4
    refine ⟨r4, ?_, ?_, ?_⟩
    · cases hl : run (.opt (bracketed '〖' 3 '〗')) t d with
      | nil => simp [hl] at h3
      | cons z zs =>
        simp only [hl, List.head?_cons, Option.some.injEq] at h3
        subst h3
        simp [List.findSome?_cons, h4]
    · rw [run_opt_bracketed_frame _ _ _ _ _ r4 h4m 1 (by decide),
        run_opt_bracketed_frame _ _ _ _ _ r3 h3m 1 (by decide)]
    · rw [run_opt_bracketed_frame _ _ _ _ _ r4 h4m 2 (by decide),
        run_opt_bracketed_frame _ _ _ _ _ r3 h3m 2 (by decide)]
  obtain ⟨r, hr, hr1, hr2⟩ := hne r0.1 r0.2
  refine ⟨r, ?_, by rw [hr1, h01], by rw [hr2, h02]⟩
  rw [fieldsExp, run_seq, List.head?_flatMap]
  cases hl : run (.opt (bracketed '【' 2 '】')) s c with
  | nil => simp [hl] at h0
  | cons z zs =>
    simp only [hl, List.head?_cons, Option.some.injEq] at h0
    subst h0
    simp [List.findSome?_cons, hr]

theorem matchAt_partsExp_none (x : Char) (xs : List Char) (hx : notOpen x = false) :
    matchAt partsExp (x :: xs) = none := by
  simp [matchAt, partsExp_eq, run_seq, run_group, run_plus_cls, hx]

theorem matchAt_partsExp_nil : matchAt partsExp [] = none := by
  simp [matchAt, partsExp_eq, run_seq, run_group, run_plus_cls_nil]

theorem matchAt_partsExp_some (x : Char) (xs : List Char) (hx : notOpen x = true) :
    ∃ m, matchAt partsExp (x :: xs) = some m ∧ m.caps 1 = x :: xs.takeWhile notOpen ∧
      m.caps 2 = secondField (xs.dropWhile notOpen) := by
  have hcap : (noCaps.set 1 (x :: xs.takeWhile notOpen)) 2 = [] := by simp [Caps.set, noCaps]
  obtain ⟨r, hr, hr1, hr2⟩ :=
    head?_fieldsExp (xs.dropWhile notOpen) (noCaps.set 1 (x :: xs.takeWhile notOpen)) hcap
  have hrun : (run partsExp (x :: xs) noCaps).head? = some r := by
    have hh := starCls_head notOpen xs
    cases hl : starCls notOpen xs with
    | nil => simp [hl] at hh
    | cons z zs =>
      simp only [hl, List.head?_cons, Option.some.injEq] at hh
      subst hh
      have htk : (x :: xs).take ((x :: xs).length - (List.dropWhile notOpen xs).length)
          = x :: xs.takeWhile notOpen := by
        have := take_length_sub (x :: xs.takeWhile notOpen) (xs.dropWhile notOpen)
        simpa [List.takeWhile_append_dropWhile] using this
      simp only [partsExp_eq, run_seq, run_group, run_plus_cls, hx, if_true, hl,
        List.map_cons, List.flatMap_cons, htk, List.head?_append, hr, Option.or_some, Option.or]
  refine ⟨{ pre := [], whole := (x :: xs).take ((x :: xs).length - r.1.length), post := r.1,
            caps := r.2 }, ?_, hr1.trans (set_eq _ _ _), hr2⟩
  simp [matchAt, hrun]

theorem search_partsExp_none :
    ∀ (h : List Char), (∀ x ∈ h, notOpen x = false) → search partsExp h = none := by
  intro h
  induction h with
  | nil => intro _; simp [search, matchAt_partsExp_nil]
  | cons x xs ih =>
    intro hall
    rw [search_cons_none _ _ _ (matchAt_partsExp_none x xs (hall x (List.mem_cons_self _ _))),
      ih (fun y hy => hall y (List.mem_cons_of_mem _ hy))]
    rfl

/-- The heading match fails on a heading made of `（`, `【`, `〖` only. -/
theorem find_partsExp_none (h : List Char) (hall : ∀ x ∈ h, notOpen x = false) :
    FindStringSubmatch partsExp h = none := by
  simp [FindStringSubmatch, search_partsExp_none h hall]

/-- The heading match starts at the first character outside `（【〖`; group 1 is the
run of such characters from there, group 2 is read off what follows that run. -/
theorem find_partsExp_some (B : List Char) (x : Char) (xs : List Char)
    (hB : ∀ y ∈ B, notOpen y = false) (hx : notOpen x = true) :
    ∃ m, FindStringSubmatch partsExp (B ++ x :: xs) = some m ∧
      m 1 = x :: xs.takeWhile notOpen ∧ m 2 = secondField (xs.dropWhile notOpen) := by
  obtain ⟨m, hm, h1, h2⟩ := matchAt_partsExp_some x xs hx
  refine ⟨fun i => if i = 0 then m.whole else m.caps i, ?_, by simpa using h1, by simpa using h2⟩
  rw [FindStringSubmatch, search_skip _ _ _ (fun y hy ys => matchAt_partsExp_none y ys (hB y hy)),
    search_cons_some _ _ _ _ hm]
  rfl

theorem extractTerms_some (B : List Char) (x : Char) (xs t : List Char)
    (hB : ∀ y ∈ B, notOpen y = false) (hx : notOpen x = true) :
    extractTerms ⟨B ++ x :: xs, t⟩ =
      buildTerms (expressionsOf (secondField (xs.dropWhile notOpen)))
        (readingsOf (x :: xs.takeWhile notOpen)) t (tagsOf t) := by
  obtain ⟨m, hm, h1, h2⟩ := find_partsExp_some B x xs hB hx
  simp [extractTerms, hm, h1, h2]

/-! ### The reading pattern -/

theorem split_first (p : Char → Bool) :
    ∀ (s : List Char), (∀ x ∈ s, p x = false) ∨
      ∃ A x xs, s = A ++ x :: xs ∧ (∀ y ∈ A, p y = false) ∧ p x = true := by
  intro s
  induction s with
  | nil => left; simp
  | cons x xs ih =>
    by_cases hp : p x = true
    · right; exact ⟨[], x, xs, rfl, by simp, hp⟩
    · simp only [Bool.not_eq_true] at hp
      rcases ih with h | ⟨A, y, ys, rfl, hA, hy⟩
      · left
        intro z hz
        rcases List.mem_cons.mp hz with rfl | hz
        · exact hp
        · exact h z hz
      · right
        refine ⟨x :: A, y, ys, rfl, ?_, hy⟩
        intro z hz
        rcases List.mem_cons.mp hz with rfl | hz
        · exact hp
        · exact hA z hz

theorem matchAt_plus_cls (p : Char → Bool) (x : Char) (xs : List Char) :
    matchAt (.plus (.cls p)) (x :: xs) =
      if p x then
        some { pre := [], whole := x :: xs.takeWhile p, post := xs.dropWhile p, caps := noCaps }
      else none := by
  by_cases hp : p x = true
  · have hh := starCls_head p xs
    cases hl : starCls p xs with
    | nil => simp [hl] at hh
    | cons z zs =>
      simp only [hl, List.head?_cons, Option.some.injEq] at hh
      subst hh
      have htk : (x :: xs).take ((x :: xs).length - (List.dropWhile p xs).length)
          = x :: xs.takeWhile p := by
        have := take_length_sub (x :: xs.takeWhile p) (xs.dropWhile p)
        simpa [List.takeWhile_append_dropWhile] using this
      simp only [matchAt, run_plus_cls, hp, if_true, hl, List.map_cons, List.head?_cons,
        Option.map_some', htk]
  · simp [matchAt, run_plus_cls, hp]

theorem search_plus_cls_none (p : Char → Bool) :
    ∀ (s : List Char), (∀ x ∈ s, p x = false) → search (.plus (.cls p)) s = none := by
  intro s
  induction s with
  | nil => intro _; simp [search, matchAt, run_plus_cls_nil]
  | cons x xs ih =>
    intro hall
    have hx := hall x (List.mem_cons_self _ _)
    rw [search_cons_none _ _ _ (by simp [matchAt_plus_cls, hx]),
      ih (fun y hy => hall y (List.mem_cons_of_mem _ hy))]
    rfl

theorem search_plus_cls_some (p : Char → Bool) (A : List Char) (x : Char) (xs : List Char)
    (hA : ∀ y ∈ A, p y = false) (hx : p x = true) :
    search (.plus (.cls p)) (A ++ x :: xs) =
      some { pre := A, whole := x :: xs.takeWhile p, post := xs.dropWhile p, caps := noCaps } := by
  rw [search_skip _ _ _ (fun y hy ys => by simp [matchAt_plus_cls, hA y hy]),
    search_cons_some _ _ _ _ (by rw [matchAt_plus_cls, if_pos hx])]
  simp

theorem filter_not_dropWhile (p : Char → Bool) :
    ∀ (s : List Char), (s.dropWhile p).filter (fun x => !p x) = s.filter (fun x => !p x) := by
  intro s
  induction s with
  | nil => rfl
  | cons x xs ih =>
    by_cases hp : p x = true
    · simp [List.dropWhile, hp, ih]
    · simp [List.dropWhile, hp]

theorem filter_not_of_all_false (p : Char → Bool) (s : List Char) (h : ∀ x ∈ s, p x = false) :
    s.filter (fun x => !p x) = s := by
  rw [List.filter_eq_self]
  intro x hx
  simp [h x hx]

theorem replaceLoop_plus_cls (p : Char → Bool) :
    ∀ (n : Nat) (s : List Char) (at0 : Bool), s.length < n →
      replaceLoop (.plus (.cls p)) (fun _ => []) n at0 [] s = s.filter (fun x => !p x) := by
  intro n
  induction n with
  | zero => intro s _ h; simp at h
  | succ n ih =>
    intro s at0 hlen
    rcases split_first p s with h | ⟨A, x, xs, rfl, hA, hx⟩
    · rw [replaceLoop_none _ _ _ _ _ _ (search_plus_cls_none p s h), filter_not_of_all_false p s h]
      rfl
    · have hd : (xs.dropWhile p).length < n := by
        have h1 : (xs.dropWhile p).length ≤ xs.length := by
          have := congrArg List.length (List.takeWhile_append_dropWhile p xs)
          simp only [List.length_append] at this
          omega
        simp only [List.length_append, List.length_cons] at hlen
        omega
      simp only [replaceLoop, search_plus_cls_some p A x xs hA hx, ih _ false hd,
        filter_not_dropWhile]
      simp [filter_not_of_all_false p A hA, hx]

/-- Deleting every match of `[-・]+` deletes every `-` and `・`. -/
theorem replace_phonExp (s : List Char) :
    ReplaceAllLiteralString phonExp s [] = s.filter (fun x => !phonChar x) :=
  replaceLoop_plus_cls phonChar (s.length + 1) s true (Nat.lt_succ_self _)

/-! ### Tag classification -/

theorem mem_appendStringUnique (l : List (List Char)) (x s : List Char) :
    s ∈ appendStringUnique l x ↔ s ∈ l ∨ s = x := by
  unfold appendStringUnique
  by_cases h : x ∈ l
  · simp only [h, if_true]
    constructor
    · exact Or.inl
    · rintro (h1 | rfl)
      · exact h1
      · exact h
  · simp [h]

theorem foldl_inv {β : Type} (Q : dbTerm → Prop) (f : dbTerm → β → dbTerm)
    (hf : ∀ t x, Q t → Q (f t x)) : ∀ (l : List β) (t : dbTerm), Q t → Q (l.foldl f t) := by
  intro l
  induction l with
  | nil => intro t h; exact h
  | cons x xs ih => intro t h; exact ih _ (hf t x h)

theorem foldl_rel {β : Type} (P : dbTerm → dbTerm → Prop) (f : dbTerm → β → dbTerm)
    (hf : ∀ t1 t2 x, P t1 t2 → P (f t1 x) (f t2 x)) :
    ∀ (l : List β) (t1 t2 : dbTerm), P t1 t2 → P (l.foldl f t1) (l.foldl f t2) := by
  intro l
  induction l with
  | nil => intro t1 t2 h; exact h
  | cons x xs ih => intro t1 t2 h; exact ih _ _ (hf t1 t2 x h)

theorem exportTags_fields (term : dbTerm) (tags : List (List Char)) :
    (exportTags term tags).Expression = term.Expression ∧
      (exportTags term tags).Reading = term.Reading ∧
      (exportTags term tags).Glossary = term.Glossary ∧
      (exportTags term tags).Rules = term.Rules := by
  unfold exportTags
  refine foldl_inv (fun t => t.Expression = term.Expression ∧ t.Reading = term.Reading ∧
    t.Glossary = term.Glossary ∧ t.Rules = term.Rules) _ ?_ tags term ⟨rfl, rfl, rfl, rfl⟩
  intro t tag ht
  refine foldl_inv (fun t => t.Expression = term.Expression ∧ t.Reading = term.Reading ∧
    t.Glossary = term.Glossary ∧ t.Rules = term.Rules) _ ?_ parsed t ht
  intro t p ht
  beta_reduce
  split_ifs <;> simpa [dbTerm.addTags] using ht

theorem exportRules_fields (term : dbTerm) (tags : List (List Char)) :
    (exportRules term tags).Expression = term.Expression ∧
      (exportRules term tags).Reading = term.Reading ∧
      (exportRules term tags).Glossary = term.Glossary := by
  unfold exportRules
  refine foldl_inv (fun t => t.Expression = term.Expression ∧ t.Reading = term.Reading ∧
    t.Glossary = term.Glossary) _ ?_ tags term ⟨rfl, rfl, rfl⟩
  intro t tag ht
  beta_reduce
  split_ifs <;> simpa [dbTerm.addTags, dbTerm.addRules] using ht

theorem exportTags_congr (t1 t2 : dbTerm) (tags : List (List Char))
    (h : t1.Tags = t2.Tags ∧ t1.Rules = t2.Rules) :
    (exportTags t1 tags).Tags = (exportTags t2 tags).Tags ∧
      (exportTags t1 tags).Rules = (exportTags t2 tags).Rules := by
  unfold exportTags
  refine foldl_rel (fun a b => a.Tags = b.Tags ∧ a.Rules = b.Rules) _ ?_ tags t1 t2 h
  intro a b tag hab
  refine foldl_rel (fun a b => a.Tags = b.Tags ∧ a.Rules = b.Rules) _ ?_ parsed a b hab
  intro a b p hab
  obtain ⟨ha, hb⟩ := hab
  split_ifs <;> simp [dbTerm.addTags, ha, hb]

theorem exportRules_congr (t1 t2 : dbTerm) (tags : List (List Char))
    (h : t1.Tags = t2.Tags ∧ t1.Rules = t2.Rules) :
    (exportRules t1 tags).Tags = (exportRules t2 tags).Tags ∧
      (exportRules t1 tags).Rules = (exportRules t2 tags).Rules := by
  unfold exportRules
  refine foldl_rel (fun a b => a.Tags = b.Tags ∧ a.Rules = b.Rules) _ ?_ tags t1 t2 h
  intro a b tag hab
  obtain ⟨ha, hb⟩ := hab
  split_ifs <;> simp [dbTerm.addTags, dbTerm.addRules, ha, hb]

theorem mkTerm_fields (e r text : List Char) (tags : List (List Char)) :
    (mkTerm e r text tags).Expression = e ∧ (mkTerm e r text tags).Reading = r ∧
      (mkTerm e r text tags).Glossary = [text] := by
  unfold mkTerm
  obtain ⟨h1, h2, h3⟩ := exportRules_fields
    (exportTags { Expression := e, Reading := r, Glossary := [text] } tags) tags
  obtain ⟨k1, k2, k3, -⟩ := exportTags_fields
    { Expression := e, Reading := r, Glossary := [text] } tags
  exact ⟨h1.trans k1, h2.trans k2, h3.trans k3⟩

theorem mkTerm_class (e r e' r' text : List Char) (tags : List (List Char)) :
    (mkTerm e r text tags).Tags = (mkTerm e' r' text tags).Tags ∧
      (mkTerm e r text tags).Rules = (mkTerm e' r' text tags).Rules := by
  unfold mkTerm
  exact exportRules_congr _ _ tags (exportTags_congr _ _ tags ⟨rfl, rfl⟩)

theorem mem_buildTerms (es rs : List (List Char)) (text : List Char) (tags : List (List Char))
    (x : dbTerm) (hx : x ∈ buildTerms es rs text tags) :
    ∃ e r, x = mkTerm e r text tags := by
  unfold buildTerms at hx
  by_cases h : es.length = 0
  · simp only [h, if_true, List.mem_map] at hx
    obtain ⟨r, -, rfl⟩ := hx
    exact ⟨r, [], rfl⟩
  · simp only [h, if_false, List.mem_flatMap, List.mem_map] at hx
    obtain ⟨e, -, r, -, rfl⟩ := hx
    exact ⟨e, r, rfl⟩

theorem mem_extractTerms (h t : List Char) (x : dbTerm) (hx : x ∈ extractTerms ⟨h, t⟩) :
    ∃ e r, x = mkTerm e r t (tagsOf t) := by
  unfold extractTerms at hx
  cases hm : FindStringSubmatch partsExp h with
  | none => simp [hm] at hx
  | some m =>
    simp only [hm] at hx
    exact mem_buildTerms _ _ _ _ x hx

theorem mem_exportTags_inner (tag s : List Char) :
    ∀ (ps : List (List Char)) (t : dbTerm),
      s ∈ (ps.foldl (fun t p => if tag = p then t.addTags tag else t) t).Tags ↔
        s ∈ t.Tags ∨ (s = tag ∧ tag ∈ ps) := by
  intro ps
  induction ps with
  | nil => intro t; simp
  | cons p ps ih =>
    intro t
    rw [List.foldl_cons, ih]
    by_cases hp : tag = p
    · subst hp
      simp only [if_true, dbTerm.addTags, mem_appendStringUnique, List.mem_cons, true_or,
        and_true]
      tauto
    · simp only [hp, if_false, List.mem_cons, false_or]

/-- The tags after `exportTags`. -/
theorem mem_exportTags (s : List Char) :
    ∀ (tags : List (List Char)) (t : dbTerm),
      s ∈ (exportTags t tags).Tags ↔ s ∈ t.Tags ∨ (s ∈ tags ∧ s ∈ parsed) := by
  intro tags
  induction tags with
  | nil => intro t; simp [exportTags]
  | cons tag tags ih =>
    intro t
    have : exportTags t (tag :: tags) =
        exportTags (parsed.foldl (fun t p => if tag = p then t.addTags tag else t) t) tags := rfl
    rw [this, ih, mem_exportTags_inner]
    simp only [List.mem_cons]
    constructor
    · rintro ((h | ⟨rfl, h⟩) | ⟨h1, h2⟩)
      · exact Or.inl h
      · exact Or.inr ⟨Or.inl rfl, h⟩
      · exact Or.inr ⟨Or.inr h1, h2⟩
    · rintro (h | ⟨rfl | h1, h2⟩)
      · exact Or.inl (Or.inl h)
      · exact Or.inl (Or.inr ⟨rfl, h2⟩)
      · exact Or.inr ⟨h1, h2⟩

/-- The rules after `exportRules`. -/
theorem mem_exportRules (s : List Char) :
    ∀ (tags : List (List Char)) (t : dbTerm),
      s ∈ (exportRules t tags).Rules ↔ s ∈ t.Rules ∨ ∃ tag ∈ tags,
        (tag = "形".toList ∧ s = "adj-i".toList) ∨
        (tag ≠ "形".toList ∧ MatchString v5Exp tag = true ∧ s = "v5".toList) ∨
        (tag ≠ "形".toList ∧ MatchString v5Exp tag = false ∧ MatchString v1Exp tag = true ∧
          s = "v1".toList) := by
  intro tags
  induction tags with
  | nil => intro t; simp [exportRules]
  | cons tag tags ih =>
    intro t
    have hstep : exportRules t (tag :: tags) =
        exportRules
          (if tag = "形".toList then (t.addTags "adj-i".toList).addRules "adj-i".toList
           else if MatchString v5Exp tag then (t.addTags "v5".toList).addRules "v5".toList
           else if MatchString v1Exp tag then (t.addTags "v1".toList).addRules "v1".toList
           else t) tags := rfl
    rw [hstep, ih]
    simp only [List.mem_cons, exists_eq_or_imp]
    rw [← or_assoc]
    refine or_congr_left ?_
    by_cases h1 : tag = "形".toList
    · rw [if_pos h1]
      simp only [dbTerm.addRules, dbTerm.addTags, mem_appendStringUnique, h1, ne_eq,
        not_true_eq_false, false_and, or_false, true_and]
    · rw [if_neg h1]
      by_cases h2 : MatchString v5Exp tag = true
      · rw [if_pos h2]
        simp only [dbTerm.addRules, dbTerm.addTags, mem_appendStringUnique, h1, h2, ne_eq,
          not_false_eq_true, false_and, true_and, false_or, Bool.true_eq_false, or_false]
      · rw [if_neg h2]
        have h2f : MatchString v5Exp tag = false := by simpa using h2
        by_cases h3 : MatchString v1Exp tag = true
        · rw [if_pos h3]
          simp only [dbTerm.addRules, dbTerm.addTags, mem_appendStringUnique, h1, h2f, h3, ne_eq,
            not_false_eq_true, false_and, true_and, false_or, Bool.false_eq_true]
        · rw [if_neg h3]
          have h3f : MatchString v1Exp tag = false := by simpa using h3
          simp only [h1, h2f, h3f, false_and, and_false, or_false, false_or,
            Bool.false_eq_true]

/-! ### The two verb patterns -/

theorem search_isSome_iff (re : Regex) :
    ∀ (s : List Char), (search re s).isSome = true ↔
      ∃ pre suf, s = pre ++ suf ∧ run re suf noCaps ≠ [] := by
  intro s
  induction s with
  | nil =>
    simp only [search, matchAt, Option.isSome_map', List.nil_eq, List.append_eq_nil]
    constructor
    · intro h
      refine ⟨[], [], ⟨rfl, rfl⟩, ?_⟩
      intro e; simp [e] at h
    · rintro ⟨pre, suf, ⟨rfl, rfl⟩, h⟩
      cases hr : run re [] noCaps with
      | nil => exact absurd hr h
      | cons a l => rfl
  | cons x xs ih =>
    cases hm : matchAt re (x :: xs) with
    | some m =>
      rw [search_cons_some _ _ _ _ hm]
      simp only [Option.isSome_some, true_iff]
      refine ⟨[], x :: xs, rfl, ?_⟩
      intro e; simp [matchAt, e] at hm
    | none =>
      rw [search_cons_none _ _ _ hm, Option.isSome_map', ih]
      have hnil : run re (x :: xs) noCaps = [] := by
        cases hr : run re (x :: xs) noCaps with
        | nil => rfl
        | cons a l => simp [matchAt, hr] at hm
      constructor
      · rintro ⟨pre, suf, rfl, h⟩
        exact ⟨x :: pre, suf, rfl, h⟩
      · rintro ⟨pre, suf, he, h⟩
        cases pre with
        | nil =>
          simp only [List.nil_append] at he
          subst he
          exact absurd hnil h
        | cons y pre =>
          simp only [List.cons_append, List.cons.injEq] at he
          exact ⟨pre, suf, he.2, h⟩

theorem run_lit3 (a z : Char) (s : List Char) (c : Caps) :
    run (.seq (chr a) (.seq dot (chr z))) s c ≠ [] ↔
      ∃ x post, s = a :: x :: z :: post ∧ x ≠ '\n' := by
  match s with
  | [] => simp [run_seq, chr, run_cls_nil]
  | [p] => by_cases h : p = a <;> simp [run_seq, chr, dot, run_cls_cons, run_cls_nil, h]
  | [p, q] =>
    by_cases h : p = a <;> by_cases h2 : q = '\n' <;>
      simp [run_seq, chr, dot, run_cls_cons, run_cls_nil, h, h2]
  | p :: q :: r :: rest =>
    by_cases h : p = a <;> by_cases h2 : q = '\n' <;> by_cases h3 : r = z <;>
      simp [run_seq, chr, dot, run_cls_cons, run_cls_nil, h, h2, h3]

theorem run_lit4 (a z : Char) (s : List Char) (c : Caps) :
    run (.seq (chr a) (.seq dot (.seq dot (chr z)))) s c ≠ [] ↔
      ∃ x y post, s = a :: x :: y :: z :: post ∧ x ≠ '\n' ∧ y ≠ '\n' := by
  match s with
  | [] => simp [run_seq, chr, run_cls_nil]
  | [p] => by_cases h : p = a <;> simp [run_seq, chr, dot, run_cls_cons, run_cls_nil, h]
  | [p, q] =>
    by_cases h : p = a <;> by_cases h2 : q = '\n' <;>
      simp [run_seq, chr, dot, run_cls_cons, run_cls_nil, h, h2]
  | [p, q, r] =>
    by_cases h : p = a <;> by_cases h2 : q = '\n' <;> by_cases h3 : r = '\n' <;>
      simp [run_seq, chr, dot, run_cls_cons, run_cls_nil, h, h2, h3]
  | p :: q :: r :: u :: rest =>
    by_cases h : p = a <;> by_cases h2 : q = '\n' <;> by_cases h3 : r = '\n' <;>
      by_cases h4 : u = z <;>
      first
      | (simp [run_seq, chr, dot, run_cls_cons, run_cls_nil, h, h2, h3, h4]; done)
      | (simp [run_seq, chr, dot, run_cls_cons, run_cls_nil, h, h2, h3, h4]
         exact ⟨q, r, ⟨rfl, rfl⟩, h2, h3⟩)

/-- The pattern `動..一` matches exactly the tokens with such a substring. -/
theorem matchString_v1Exp (t : List Char) : MatchString v1Exp t = true ↔ hasOneGrade t := by
  unfold MatchString hasOneGrade
  rw [search_isSome_iff]
  constructor
  · rintro ⟨pre, suf, rfl, h⟩
    obtain ⟨x, y, post, rfl, hx, hy⟩ := (run_lit4 '動' '一' suf noCaps).mp h
    exact ⟨pre, x, y, post, rfl, hx, hy⟩
  · rintro ⟨pre, x, y, post, rfl, hx, hy⟩
    exact ⟨pre, _, rfl, (run_lit4 '動' '一' _ noCaps).mpr ⟨x, y, post, rfl, hx, hy⟩⟩

/-- The pattern `(動.五)|(動..二)` matches exactly the tokens with such a substring. -/
theorem matchString_v5Exp (t : List Char) : MatchString v5Exp t = true ↔ hasFiveGrade t := by
  unfold MatchString hasFiveGrade
  rw [search_isSome_iff]
  have hrun : ∀ suf, run v5Exp suf noCaps ≠ [] ↔
      run (.seq (chr '動') (.seq dot (chr '五'))) suf noCaps ≠ [] ∨
      run (.seq (chr '動') (.seq dot (.seq dot (chr '二')))) suf noCaps ≠ [] := by
    intro suf
    simp only [v5Exp, run_alt, run_group, ne_eq, List.append_eq_nil, List.map_eq_nil_iff]
    tauto
  constructor
  · rintro ⟨pre, suf, rfl, h⟩
    rcases (hrun suf).mp h with h | h
    · obtain ⟨x, post, rfl, hx⟩ := (run_lit3 '動' '五' suf noCaps).mp h
      exact Or.inl ⟨pre, x, post, rfl, hx⟩
    · obtain ⟨x, y, post, rfl, hx, hy⟩ := (run_lit4 '動' '二' suf noCaps).mp h
      exact Or.inr ⟨pre, x, y, post, rfl, hx, hy⟩
  · rintro (⟨pre, x, post, rfl, hx⟩ | ⟨pre, x, y, post, rfl, hx, hy⟩)
    · exact ⟨pre, _, rfl, (hrun _).mpr (Or.inl ((run_lit3 '動' '五' _ noCaps).mpr ⟨x, post, rfl, hx⟩))⟩
    · exact ⟨pre, _, rfl,
        (hrun _).mpr (Or.inr ((run_lit4 '動' '二' _ noCaps).mpr ⟨x, y, post, rfl, hx, hy⟩))⟩

/-! ### Reading off the fields of a heading -/

theorem notOpen_eq : notOpen = fun c => decide (c ≠ '（' ∧ c ≠ '【' ∧ c ≠ '〖') := by
  funext c
  by_cases h1 : c = '（' <;> by_cases h2 : c = '【' <;> by_cases h3 : c = '〖' <;>
    simp [notOpen, h1, h2, h3]

theorem phonChar_eq :
    (fun x => !phonChar x) = fun c => decide (c ≠ '-' ∧ c ≠ '・') := by
  funext c
  by_cases h1 : c = '-' <;> by_cases h2 : c = '・' <;> simp [phonChar, h1, h2]

theorem notOpen_true (c : Char) : notOpen c = true ↔ c ≠ '（' ∧ c ≠ '【' ∧ c ≠ '〖' := by
  simp [notOpen, and_assoc]

theorem notOpen_false (c : Char) : notOpen c = false ↔ c = '（' ∨ c = '【' ∨ c = '〖' := by
  by_cases h1 : c = '（' <;> by_cases h2 : c = '【' <;> by_cases h3 : c = '〖' <;>
    simp [notOpen, h1, h2, h3]

theorem secondField_of_not_mem (s : List Char) (h : '【' ∉ s) : secondField s = [] := by
  cases s with
  | nil => rfl
  | cons y ys =>
    simp only [List.mem_cons, not_or] at h
    simp [secondField, Ne.symm h.1]

theorem readingsOf_cons (x : Char) (xs : List Char) :
    readingsOf (x :: xs) = [(x :: xs).filter (fun c => decide (c ≠ '-' ∧ c ≠ '・'))] := by
  simp [readingsOf, replace_phonExp, phonChar_eq]

theorem expressionsOf_nil : expressionsOf [] = [] := by
  simp [expressionsOf]

theorem buildTerms_nil (rs : List (List Char)) (text : List Char) (tags : List (List Char)) :
    buildTerms [] rs text tags = rs.map (fun reading => mkTerm reading [] text tags) := by
  simp [buildTerms]

theorem buildTerms_cons (e : List Char) (es rs : List (List Char)) (text : List Char)
    (tags : List (List Char)) :
    buildTerms (e :: es) rs text tags =
      (e :: es).flatMap (fun expression =>
        rs.map (fun reading => mkTerm expression reading text tags)) := by
  simp [buildTerms]

/-! ### The expression field -/

theorem Split_ne_nil (sep : Char) : ∀ (s : List Char), Split sep s ≠ [] := by
  intro s
  induction s with
  | nil => simp [Split]
  | cons x xs ih =>
    by_cases hx : x = sep
    · simp [Split, hx]
    · cases hs : Split sep xs with
      | nil => exact absurd hs ih
      | cons p ps => simp [Split, hx, hs]

theorem Split_of_not_mem (sep : Char) :
    ∀ (s : List Char), sep ∉ s → Split sep s = [s] := by
  intro s
  induction s with
  | nil => intro _; rfl
  | cons x xs ih =>
    intro h
    simp only [List.mem_cons, not_or] at h
    simp [Split, Ne.symm h.1, ih h.2]

theorem Split_append (sep : Char) (B : List Char) :
    ∀ (A : List Char), sep ∉ A → Split sep (A ++ sep :: B) = A :: Split sep B := by
  intro A
  induction A with
  | nil => intro _; simp [Split]
  | cons x xs ih =>
    intro h
    simp only [List.mem_cons, not_or] at h
    simp [Split, Ne.symm h.1, ih h.2]

theorem takeWhile_append_stop (p : Char → Bool) (y : Char) (B : List Char) (hy : p y = false) :
    ∀ (A : List Char), (∀ a ∈ A, p a = true) →
      (A ++ y :: B).takeWhile p = A ∧ (A ++ y :: B).dropWhile p = y :: B := by
  intro A
  induction A with
  | nil => intro _; simp [List.takeWhile, List.dropWhile, hy]
  | cons a A ih =>
    intro h
    have ha := h a (List.mem_cons_self _ _)
    obtain ⟨h1, h2⟩ := ih (fun z hz => h z (List.mem_cons_of_mem _ hz))
    simp [List.takeWhile, List.dropWhile, ha, h1, h2]

theorem secondField_closed (E : List Char) (hE : '\n' ∉ E) :
    secondField ('【' :: E ++ ['】']) = E := by
  have h := closers_head '】' [] rfl E hE
  simp [secondField, h]

theorem replaceLit_bracketed_none (a : Char) (k : Nat) (b : Char) (s repl : List Char)
    (h : a ∉ s) : ReplaceAllLiteralString (bracketed a k b) s repl = s := by
  unfold ReplaceAllLiteralString
  rw [replaceLoop_none _ _ _ _ _ _ (search_bracketed_none a k b s h)]
  rfl

theorem replaceTmpl_bracketed_none (a : Char) (k : Nat) (b : Char) (s : List Char)
    (repl : List Tmpl) (h : a ∉ s) : ReplaceAllString (bracketed a k b) s repl = s := by
  unfold ReplaceAllString
  rw [replaceLoop_none _ _ _ _ _ _ (search_bracketed_none a k b s h)]
  rfl

theorem expandSplit_plain (A : List Char) (h : '(' ∉ A) : expandSplit A = [A] := by
  simp [expandSplit, variantExp_eq, replaceTmpl_bracketed_none _ _ _ A _ h]

theorem expandSplit_variant (P Q S : List Char) (hP : '(' ∉ P) (hQ : '\n' ∉ Q)
    (hS1 : '(' ∉ S) (hS2 : ')' ∉ S) :
    expandSplit (P ++ '(' :: Q ++ ')' :: S) = [P ++ Q ++ S, P ++ S] := by
  have hc : closers ')' S = [] :=
    closers_eq_nil ')' (by decide) S
      (fun hm => hS2 ((List.takeWhile_sublist _).subset hm))
  have hh : (closers ')' (Q ++ ')' :: S)).head? = some (Q, S) := closers_head ')' S hc Q hQ
  have hinc : ReplaceAllString variantExp (P ++ '(' :: Q ++ ')' :: S) [.ref 1] = P ++ Q ++ S := by
    unfold ReplaceAllString
    have := replace_bracketed_once '(' 1 ')' (fun m => expand m [.ref 1]) P (Q ++ ')' :: S) Q S
      (P ++ '(' :: Q ++ ')' :: S).length true hP hh hS1
    simp only [List.cons_append, List.append_assoc] at this ⊢
    rw [variantExp_eq, this]
    simp [expand, Caps.set]
  have hexc : ReplaceAllLiteralString variantExp (P ++ '(' :: Q ++ ')' :: S) [] = P ++ S := by
    unfold ReplaceAllLiteralString
    have := replace_bracketed_once '(' 1 ')' (fun _ => []) P (Q ++ ')' :: S) Q S
      (P ++ '(' :: Q ++ ')' :: S).length true hP hh hS1
    simp only [List.cons_append, List.append_assoc] at this ⊢
    rw [variantExp_eq, this]
    simp
  have hne : P ++ '(' :: Q ++ ')' :: S ≠ P ++ Q ++ S := by
    intro e
    have := congrArg List.length e
    simp at this
    omega
  unfold expandSplit
  simp only [hinc, hexc]
  rw [if_pos hne]

theorem expressionsOf_plain (E : List Char) (hE : E ≠ []) (h1 : '（' ∉ E) :
    expressionsOf E = (Split '・' E).flatMap expandSplit := by
  have hlen : 0 < E.length := List.length_pos.mpr hE
  simp [expressionsOf, hlen, annotExp_eq, replaceLit_bracketed_none _ _ _ E [] h1]

theorem extractTerms_closed (x : Char) (R E t : List Char) (hx : notOpen x = true)
    (hR : ∀ c ∈ R, notOpen c = true) (hE : '\n' ∉ E) :
    extractTerms ⟨x :: R ++ '【' :: E ++ ['】'], t⟩ =
      buildTerms (expressionsOf E)
        [(x :: R).filter (fun c => decide (c ≠ '-' ∧ c ≠ '・'))] t (tagsOf t) := by
  have hext := extractTerms_some [] x (R ++ '【' :: E ++ ['】']) t (by simp) hx
  obtain ⟨h1, h2⟩ := takeWhile_append_stop notOpen '【' (E ++ ['】']) (by decide) R hR
  simp only [List.nil_append, List.append_assoc, List.cons_append] at hext h1 h2 ⊢
  rw [hext, h1, h2, readingsOf_cons]
  have := secondField_closed E hE
  simp only [List.cons_append] at this
  rw [this]

theorem not_special (s : List Char) (h : ∀ c ∈ s, c ∉ special) (c : Char) (hc : c ∈ special) :
    c ∉ s := fun hm => h c hm hc

/-! ### A bracketed pattern on a text without line breaks -/

theorem search_bracketed_none_of_close (a : Char) (k : Nat) (b : Char) (hb : b ≠ '\n') :
    ∀ (s : List Char), b ∉ s → search (bracketed a k b) s = none := by
  intro s
  induction s with
  | nil => intro _; simp [search, matchAt_bracketed_nil]
  | cons x xs ih =>
    intro h
    simp only [List.mem_cons, not_or] at h
    have hm : matchAt (bracketed a k b) (x :: xs) = none := by
      by_cases hx : x = a
      · subst hx
        exact matchAt_bracketed_eq_none _ k b xs
          (closers_eq_nil b hb xs (fun hm => h.2 ((List.takeWhile_sublist _).subset hm)))
      · exact matchAt_bracketed_ne a k b x xs hx
    rw [search_cons_none _ _ _ hm, ih h.2]
    rfl

theorem split_last (b : Char) :
    ∀ (xs : List Char), b ∈ xs → ∃ mid post, xs = mid ++ b :: post ∧ b ∉ post := by
  intro xs
  induction xs with
  | nil => intro h; simp at h
  | cons x xs ih =>
    intro h
    by_cases hxs : b ∈ xs
    · obtain ⟨mid, post, rfl, hp⟩ := ih hxs
      exact ⟨x :: mid, post, rfl, hp⟩
    · have hx : b = x := by
        rcases List.mem_cons.mp h with h | h
        · exact h
        · exact absurd h hxs
      subst hx
      exact ⟨[], xs, rfl, hxs⟩

/-- On a text without line break, a pattern `a(.*)b` matches from the first `a`
to the last `b` when that `b` comes later, and nowhere otherwise. -/
theorem search_bracketed_line (a : Char) (k : Nat) (b : Char) (hb : b ≠ '\n') :
    ∀ (p : List Char), '\n' ∉ p →
      (search (bracketed a k b) p = none ∧
        ¬ ∃ pre mid post, p = pre ++ a :: mid ++ b :: post) ∨
      (∃ pre mid post, p = pre ++ a :: mid ++ b :: post ∧ a ∉ pre ∧ b ∉ post ∧
        search (bracketed a k b) p =
          some { pre := pre, whole := a :: mid ++ [b], post := post,
                 caps := noCaps.set k mid }) := by
  intro p
  induction p with
  | nil =>
    intro _
    left
    refine ⟨by simp [search, matchAt_bracketed_nil], ?_⟩
    rintro ⟨pre, mid, post, h⟩
    simp at h
  | cons x xs ih =>
    intro hnl
    simp only [List.mem_cons, not_or] at hnl
    by_cases hx : x = a
    · subst hx
      by_cases hbx : b ∈ xs
      · right
        obtain ⟨mid, post, rfl, hp⟩ := split_last b xs hbx
        have hmid : '\n' ∉ mid := fun hm => hnl.2 (List.mem_append_left _ hm)
        have hc : closers b post = [] :=
          closers_eq_nil b hb post (fun hm => hp ((List.takeWhile_sublist _).subset hm))
        refine ⟨[], mid, post, by simp, by simp, hp, ?_⟩
        exact search_cons_some _ _ _ _
          (matchAt_bracketed_eq_some x k b _ mid post (closers_head b post hc mid hmid))
      · left
        have hm : matchAt (bracketed x k b) (x :: xs) = none :=
          matchAt_bracketed_eq_none _ k b xs
            (closers_eq_nil b hb xs (fun hm => hbx ((List.takeWhile_sublist _).subset hm)))
        refine ⟨?_, ?_⟩
        · rw [search_cons_none _ _ _ hm, search_bracketed_none_of_close x k b hb xs hbx]
          rfl
        · rintro ⟨pre, mid, post, h⟩
          apply hbx
          cases pre with
          | nil =>
            simp only [List.nil_append, List.cons_append, List.cons.injEq, true_and] at h
            rw [h]; simp
          | cons y pre =>
            simp only [List.cons_append, List.cons.injEq] at h
            rw [h.2]; simp
    · have hm : matchAt (bracketed a k b) (x :: xs) = none := matchAt_bracketed_ne a k b x xs hx
      rcases ih hnl.2 with ⟨hs, hno⟩ | ⟨pre, mid, post, rfl, hpre, hpost, hs⟩
      · left
        refine ⟨by rw [search_cons_none _ _ _ hm, hs]; rfl, ?_⟩
        rintro ⟨pre, mid, post, h⟩
        cases pre with
        | nil =>
          simp only [List.nil_append, List.cons_append, List.cons.injEq] at h
          exact hx h.1
        | cons y pre =>
          simp only [List.cons_append, List.cons.injEq] at h
          exact hno ⟨pre, mid, post, by simpa using h.2⟩
      · right
        refine ⟨x :: pre, mid, post, by simp, ?_, hpost, ?_⟩
        · simp only [List.mem_cons, not_or]
          exact ⟨Ne.symm hx, hpre⟩
        · rw [search_cons_none _ _ _ hm, hs]
          rfl

theorem replaceLoop_once (re : Regex) (repl : Match → List Char) (n : Nat) (at0 : Bool)
    (s : List Char) (m : Match) (hs : search re s = some m) (hw : m.whole ≠ [])
    (hrest : search re m.post = none) :
    replaceLoop re repl (n + 1) at0 [] s = m.pre ++ repl m ++ m.post := by
  simp [replaceLoop, hs, hw, replaceLoop_none _ _ _ _ _ _ hrest]

/-- The surface forms of a candidate without line break. -/
theorem expandSplit_line (p : List Char) (hnl : '\n' ∉ p) :
    (expandSplit p = [p] ∧ ¬ ∃ pre mid post, p = pre ++ '(' :: mid ++ ')' :: post) ∨
    (∃ pre mid post, p = pre ++ '(' :: mid ++ ')' :: post ∧ '(' ∉ pre ∧ ')' ∉ post ∧
      expandSplit p = [pre ++ mid ++ post, pre ++ post]) := by
  rcases search_bracketed_line '(' 1 ')' (by decide) p hnl with
    ⟨hs, hno⟩ | ⟨pre, mid, post, rfl, hpre, hpost, hs⟩
  · left
    refine ⟨?_, hno⟩
    have : ReplaceAllString variantExp p [.ref 1] = p := by
      unfold ReplaceAllString
      rw [variantExp_eq, replaceLoop_none _ _ _ _ _ _ hs]
      rfl
    simp [expandSplit, this]
  · right
    refine ⟨pre, mid, post, rfl, hpre, hpost, ?_⟩
    have hrest : search (bracketed '(' 1 ')') post = none :=
      search_bracketed_none_of_close '(' 1 ')' (by decide) post hpost
    have hinc : ReplaceAllString variantExp (pre ++ '(' :: mid ++ ')' :: post) [.ref 1]
        = pre ++ mid ++ post := by
      unfold ReplaceAllString
      rw [variantExp_eq, replaceLoop_once _ _ _ _ _ _ hs (by simp) hrest]
      simp [expand, Caps.set]
    have hexc : ReplaceAllLiteralString variantExp (pre ++ '(' :: mid ++ ')' :: post) []
        = pre ++ post := by
      unfold ReplaceAllLiteralString
      rw [variantExp_eq, replaceLoop_once _ _ _ _ _ _ hs (by simp) hrest]
      simp
    have hne : pre ++ '(' :: mid ++ ')' :: post ≠ pre ++ mid ++ post := by
      intro e
      have := congrArg List.length e
      simp at this
      omega
    unfold expandSplit
    simp only [hinc, hexc]
    rw [if_pos hne]

/-! ### Matches are cut out of the text -/

theorem starLoop_suffix (step : List Char → Caps → List (List Char × Caps))
    (hstep : ∀ s c r, r ∈ step s c → ∃ u, s = u ++ r.1) :
    ∀ (n : Nat) (s : List Char) (c : Caps) (r : List Char × Caps),
      r ∈ starLoop step n s c → ∃ u, s = u ++ r.1 := by
  intro n
  induction n with
  | zero =>
    intro s c r hr
    simp only [starLoop_zero, List.mem_singleton] at hr
    subst hr
    exact ⟨[], rfl⟩
  | succ n ih =>
    intro s c r hr
    simp only [starLoop_succ, List.mem_append, List.mem_flatMap, List.mem_filter,
      List.mem_singleton] at hr
    rcases hr with ⟨r', ⟨hr', -⟩, hr⟩ | rfl
    · obtain ⟨u, hu⟩ := hstep s c r' hr'
      obtain ⟨v, hv⟩ := ih r'.1 r'.2 r hr
      exact ⟨u ++ v, by rw [hu, hv]; simp⟩
    · exact ⟨[], rfl⟩

/-- Every way of matching leaves a suffix of the text. -/
theorem run_suffix (re : Regex) :
    ∀ (s : List Char) (c : Caps) (r : List Char × Caps), r ∈ run re s c → ∃ u, s = u ++ r.1 := by
  induction re with
  | cls p =>
    intro s c r hr
    cases s with
    | nil => simp [run_cls_nil] at hr
    | cons x xs =>
      rw [run_cls_cons] at hr
      by_cases hp : p x = true
      · simp only [hp, if_true, List.mem_singleton] at hr
        subst hr
        exact ⟨[x], rfl⟩
      · simp [hp] at hr
  | seq a b iha ihb =>
    intro s c r hr
    simp only [run_seq, List.mem_flatMap] at hr
    obtain ⟨r', hr', hr⟩ := hr
    obtain ⟨u, hu⟩ := iha s c r' hr'
    obtain ⟨v, hv⟩ := ihb r'.1 r'.2 r hr
    exact ⟨u ++ v, by rw [hu, hv]; simp⟩
  | alt a b iha ihb =>
    intro s c r hr
    simp only [run_alt, List.mem_append] at hr
    rcases hr with hr | hr
    · exact iha s c r hr
    · exact ihb s c r hr
  | star a iha =>
    intro s c r hr
    rw [run_star] at hr
    exact starLoop_suffix (run a) iha _ s c r hr
  | plus a iha =>
    intro s c r hr
    simp only [run_plus, List.mem_flatMap] at hr
    obtain ⟨r', hr', hr⟩ := hr
    obtain ⟨u, hu⟩ := iha s c r' hr'
    obtain ⟨v, hv⟩ := starLoop_suffix (run a) iha _ r'.1 r'.2 r hr
    exact ⟨u ++ v, by rw [hu, hv]; simp⟩
  | opt a iha =>
    intro s c r hr
    simp only [run_opt, List.mem_append, List.mem_singleton] at hr
    rcases hr with hr | rfl
    · exact iha s c r hr
    · exact ⟨[], rfl⟩
  | group i a iha =>
    intro s c r hr
    simp only [run_group, List.mem_map] at hr
    obtain ⟨r', hr', rfl⟩ := hr
    exact iha s c r' hr'

theorem matchAt_sound (re : Regex) (s : List Char) (m : Match) (h : matchAt re s = some m) :
    m.pre = [] ∧ s = m.whole ++ m.post := by
  unfold matchAt at h
  cases hr : (run re s noCaps).head? with
  | none => simp [hr] at h
  | some r =>
    simp only [hr, Option.map_some', Option.some.injEq] at h
    subst h
    obtain ⟨u, hu⟩ := run_suffix re s noCaps r (List.mem_of_mem_head? hr)
    refine ⟨rfl, ?_⟩
    simp only
    have := take_length_sub u r.1
    rw [← hu] at this
    rw [this]
    exact hu

/-- A match found in a text cuts it into the text before, the matched text and
the text after. -/
theorem search_sound (re : Regex) :
    ∀ (s : List Char) (m : Match), search re s = some m → s = m.pre ++ m.whole ++ m.post := by
  intro s
  induction s with
  | nil =>
    intro m h
    obtain ⟨h1, h2⟩ := matchAt_sound re [] m (by simpa [search] using h)
    rw [h1]; simpa using h2
  | cons x xs ih =>
    intro m h
    cases hm : matchAt re (x :: xs) with
    | some m' =>
      rw [search_cons_some _ _ _ _ hm, Option.some.injEq] at h
      subst h
      obtain ⟨h1, h2⟩ := matchAt_sound re _ _ hm
      rw [h1]; simpa using h2
    | none =>
      rw [search_cons_none _ _ _ hm] at h
      cases hs : search re xs with
      | none => simp [hs] at h
      | some m' =>
        simp only [hs, Option.map_some', Option.some.injEq] at h
        subst h
        have := ih m' hs
        simp only [List.cons_append, List.append_assoc] at this ⊢
        rw [← this]

theorem replaceLoop_delete_subset (re : Regex) :
    ∀ (n : Nat) (at0 : Bool) (pend s : List Char) (c : Char),
      c ∈ replaceLoop re (fun _ => []) n at0 pend s → c ∈ pend ++ s := by
  intro n
  induction n with
  | zero => intro at0 pend s c h; simpa [replaceLoop] using h
  | succ n ih =>
    intro at0 pend s c h
    cases hs : search re s with
    | none => simpa [replaceLoop, hs] using h
    | some m =>
      have hsound := search_sound re s m hs
      simp only [replaceLoop, hs, ite_self, List.append_nil] at h
      by_cases hem : m.pre = [] ∧ m.whole = []
      · rw [if_pos hem] at h
        cases s with
        | nil =>
          simp only [List.mem_append] at h ⊢
          rcases h with h | h
          · exact Or.inl h
          · rw [hem.1] at h; simp at h
        | cons x xs =>
          simp only [List.mem_append] at h ⊢
          rcases h with (h | h) | h
          · exact Or.inl h
          · rw [hem.1] at h; simp at h
          · have := ih false [x] xs c h
            exact Or.inr (by simpa using this)
      · rw [if_neg hem] at h
        simp only [List.mem_append] at h ⊢
        rcases h with (h | h) | h
        · exact Or.inl h
        · right; rw [hsound]; simp [h]
        · have := ih false [] m.post c h
          right; rw [hsound]
          simp only [List.nil_append] at this
          simp [this]

theorem replaceLit_delete_subset (re : Regex) (s : List Char) (c : Char)
    (h : c ∈ ReplaceAllLiteralString re s []) : c ∈ s := by
  simpa using replaceLoop_delete_subset re _ _ _ _ c h

theorem Split_subset (sep : Char) :
    ∀ (s p : List Char), p ∈ Split sep s → ∀ c ∈ p, c ∈ s := by
  intro s
  induction s with
  | nil => intro p hp c hc; simp [Split] at hp; subst hp; simp at hc
  | cons x xs ih =>
    intro p hp c hc
    by_cases hx : x = sep
    · simp only [Split, hx, if_true, List.mem_cons] at hp
      rcases hp with rfl | hp
      · simp at hc
      · exact List.mem_cons_of_mem _ (ih p hp c hc)
    · cases hs : Split sep xs with
      | nil => exact absurd hs (Split_ne_nil sep xs)
      | cons q qs =>
        simp only [Split, hx, if_false, hs, List.mem_cons] at hp
        rcases hp with rfl | hp
        · rcases List.mem_cons.mp hc with rfl | hc
          · exact List.mem_cons_self _ _
          · exact List.mem_cons_of_mem _ (ih q (by simp [hs]) c hc)
        · exact List.mem_cons_of_mem _ (ih p (by simp [hs, hp]) c hc)

theorem secondField_no_nl (s : List Char) : '\n' ∉ secondField s := by
  cases s with
  | nil => simp [secondField]
  | cons y ys =>
    by_cases hy : y = '【'
    · cases hh : (closers '】' ys).head? with
      | none => simp [secondField, hy, hh]
      | some r =>
        have := (closers_mem '】' ys r (List.mem_of_mem_head? hh)).2
        simpa [secondField, hy, hh] using this
    · simp [secondField, hy]

theorem expandSplit_ne_nil (p : List Char) : expandSplit p ≠ [] := by
  unfold expandSplit
  simp only
  split_ifs <;> simp

theorem forms_nonempty_iff (p : List Char) (hnl : '\n' ∉ p) :
    (∀ f ∈ expandSplit p, f ≠ []) ↔ (p ≠ [] ∧ ¬ ∃ mid, p = '(' :: mid ++ [')']) := by
  rcases expandSplit_line p hnl with ⟨he, hno⟩ | ⟨pre, mid, post, rfl, hpre, hpost, he⟩
  · rw [he]
    simp only [List.mem_singleton, forall_eq, ne_eq]
    refine ⟨fun h => ⟨h, ?_⟩, fun h => h.1⟩
    rintro ⟨mid, h⟩
    exact hno ⟨[], mid, [], by simpa using h⟩
  · rw [he]
    simp only [List.mem_cons, List.mem_singleton, List.not_mem_nil, or_false, forall_eq_or_imp,
      forall_eq, ne_eq, List.append_eq_nil, not_and]
    constructor
    · rintro ⟨-, h⟩
      refine ⟨by simp, ?_⟩
      rintro ⟨mid', hm⟩
      have hpre0 : pre = [] := by
        cases pre with
        | nil => rfl
        | cons y pre =>
          simp only [List.cons_append, List.cons.injEq] at hm
          exact absurd (hm.1 ▸ List.mem_cons_self _ _) hpre
      have hpost0 : post = [] := by
        have hr := congrArg List.reverse hm
        simp only [List.reverse_append, List.reverse_cons, List.append_assoc,
          List.singleton_append, List.nil_append, List.reverse_nil] at hr
        cases hp : post.reverse with
        | nil => simpa using hp
        | cons y ys =>
          rw [hp] at hr
          simp only [List.cons_append, List.cons.injEq] at hr
          have : y ∈ post := by
            have : y ∈ post.reverse := by rw [hp]; exact List.mem_cons_self _ _
            simpa using this
          exact absurd (hr.1 ▸ this) hpost
      exact h hpre0 hpost0
    · rintro ⟨-, h⟩
      have key : pre = [] → ¬ post = [] := by
        intro h1 h2
        exact h ⟨mid, by simp [h1, h2]⟩
      exact ⟨fun h1 => key h1.1, key⟩

theorem buildTerms_single_nonempty (es : List (List Char)) (rd text : List Char)
    (tags : List (List Char)) :
    (∀ r ∈ buildTerms es [rd] text tags, r.Expression ≠ []) ↔
      ((es = [] → rd ≠ []) ∧ ∀ e ∈ es, e ≠ []) := by
  cases es with
  | nil =>
    simp [buildTerms_nil, (mkTerm_fields _ _ _ _).1]
  | cons e es =>
    rw [buildTerms_cons]
    simp only [List.map_cons, List.map_nil, List.mem_flatMap, List.mem_singleton,
      forall_exists_index, and_imp, reduceCtorEq, false_implies, true_and]
    constructor
    · intro h e' he'
      have := h _ e' he' rfl
      rwa [(mkTerm_fields _ _ _ _).1] at this
    · intro h r e' he' hr
      rw [hr, (mkTerm_fields _ _ _ _).1]
      exact h e' he'

/-- On a matching heading the record list is built from the two fields. -/
theorem fields_of_match (h : List Char)
    (hm : (FindStringSubmatch partsExp h).isSome = true) (t : List Char) :
    readingField h ≠ [] ∧ '\n' ∉ expressionField h ∧
      extractTerms ⟨h, t⟩ =
        buildTerms (expressionsOf (expressionField h))
          [(readingField h).filter (fun c => decide (c ≠ '-' ∧ c ≠ '・'))] t (tagsOf t) := by
  rcases split_first notOpen h with hall | ⟨B, x, xs, rfl, hB, hx⟩
  · rw [find_partsExp_none h hall] at hm
    simp at hm
  · obtain ⟨m, hfind, h1, h2⟩ := find_partsExp_some B x xs hB hx
    have hr : readingField (B ++ x :: xs) = x :: xs.takeWhile notOpen := by
      simp [readingField, hfind, h1]
    have he : expressionField (B ++ x :: xs) = secondField (xs.dropWhile notOpen) := by
      simp [expressionField, hfind, h2]
    rw [hr, he]
    refine ⟨by simp, secondField_no_nl _, ?_⟩
    rw [extractTerms_some B x xs t hB hx, readingsOf_cons]

theorem paren_form_iff (p : List Char) :
    (∃ mid, p = '(' :: mid ++ [')']) ↔ (p.head? = some '(' ∧ p.getLast? = some ')') := by
  constructor
  · rintro ⟨mid, rfl⟩
    refine ⟨rfl, ?_⟩
    rw [List.getLast?_eq_some_iff]
    exact ⟨'(' :: mid, rfl⟩
  · rintro ⟨h1, h2⟩
    obtain ⟨ys, rfl⟩ := List.getLast?_eq_some_iff.mp h2
    cases ys with
    | nil => simp at h1
    | cons y ys =>
      simp only [List.cons_append, List.head?_cons, Option.some.injEq] at h1
      subst h1
      exact ⟨ys, rfl⟩

/-! ### The counters never run out -/

/-- A larger counter does not change a greedy iteration: the length of the input
is enough. -/
theorem starLoop_fuel (step : List Char → Caps → List (List Char × Caps)) :
    ∀ (n k : Nat) (s : List Char) (c : Caps), s.length ≤ n →
      starLoop step (n + k) s c = starLoop step n s c := by
  intro n
  induction n with
  | zero =>
    intro k s c hs
    have hnil : s = [] := List.length_eq_zero.mp (Nat.le_zero.mp hs)
    subst hnil
    cases k with
    | zero => rfl
    | succ k =>
      have : 0 + (k + 1) = k + 1 := by omega
      rw [this, starLoop_succ, starLoop_zero]
      simp
  | succ n ih =>
    intro k s c hs
    have : n + 1 + k = (n + k) + 1 := by omega
    rw [this, starLoop_succ, starLoop_succ]
    congr 1
    apply List.flatMap_congr
    intro r hr
    simp only [List.mem_filter, decide_eq_true_eq] at hr
    exact ih k r.1 r.2 (by omega)

/-- A larger counter does not change the result of the replacement loop: one
more than the length of the source is enough. -/
theorem replaceLoop_fuel (re : Regex) (repl : Match → List Char) :
    ∀ (n k : Nat) (at0 : Bool) (pend s : List Char), s.length < n →
      replaceLoop re repl (n + k) at0 pend s = replaceLoop re repl n at0 pend s := by
  intro n
  induction n with
  | zero => intro k at0 pend s hs; simp at hs
  | succ n ih =>
    intro k at0 pend s hs
    have : n + 1 + k = (n + k) + 1 := by omega
    rw [this]
    cases hsr : search re s with
    | none => simp [replaceLoop, hsr]
    | some m =>
      have hsound := search_sound re s m hsr
      simp only [replaceLoop, hsr]
      by_cases hem : m.pre = [] ∧ m.whole = []
      · rw [if_pos hem, if_pos hem]
        cases s with
        | nil => rfl
        | cons x xs =>
          simp only
          rw [ih k false [x] xs (by simpa using hs)]
      · rw [if_neg hem, if_neg hem]
        have hlt : m.post.length < n := by
          have h1 := congrArg List.length hsound
          simp only [List.length_append] at h1
          have h2 : 0 < m.pre.length + m.whole.length := by
            rcases Nat.eq_zero_or_pos (m.pre.length + m.whole.length) with h0 | h0
            · exfalso
              apply hem
              constructor
              · exact List.length_eq_zero.mp (by omega)
              · exact List.length_eq_zero.mp (by omega)
            · exact h0
          omega
        rw [ih k false [] m.post hlt]

/-! ## The claims -/

/-- C1: a heading on which the heading grammar `partsExp` finds no match yields
the empty record list, whatever the body text. -/
theorem C1_no_match_no_records (h t : List Char)
    (hm : FindStringSubmatch partsExp h = none) : extractTerms ⟨h, t⟩ = [] := by
  simp [extractTerms, hm]

theorem C1_no_match_no_records_witness :
    FindStringSubmatch partsExp "（【".toList = none ∧
      extractTerms ⟨"（【".toList, "（名）".toList⟩ = [] :=
  ⟨rfl, C1_no_match_no_records _ _ rfl⟩

/-- C2, as stated, fails: the heading "【食べる】" begins with `【`, so its leading
run of characters outside `（【〖` is empty, yet the unanchored pattern matches from
the second character on and one record is returned. -/
theorem C2_counterexample :
    "【食べる】".toList.takeWhile (fun c => decide (c ≠ '（' ∧ c ≠ '【' ∧ c ≠ '〖')) = [] ∧
      extractTerms ⟨"【食べる】".toList, []⟩ =
        [{ Expression := "食べる】".toList, Reading := [], Glossary := [[]] }] := by
  decide

/-- C2, amended: a heading that contains no character outside `（【〖` (the empty
heading included) yields no records, whatever the body text. -/
theorem C2_only_brackets_no_records (h t : List Char)
    (hall : ∀ c ∈ h, c = '（' ∨ c = '【' ∨ c = '〖') : extractTerms ⟨h, t⟩ = [] := by
  have hm : FindStringSubmatch partsExp h = none :=
    find_partsExp_none h (fun c hc => (notOpen_false c).mpr (hall c hc))
  simp [extractTerms, hm]

theorem C2_only_brackets_no_records_witness :
    (∀ c ∈ "【（〖【".toList, c = '（' ∨ c = '【' ∨ c = '〖') ∧
      extractTerms ⟨"【（〖【".toList, "（名）".toList⟩ = [] :=
  ⟨by decide, C2_only_brackets_no_records _ _ (by decide)⟩

/-- C3: a heading without `【` whose first character is not one of `（【〖` yields
exactly one record; its Expression is the longest prefix free of `（【〖` with every
`-` and `・` deleted, and its Reading is empty. -/
theorem C3_bare_reading (x : Char) (xs t : List Char)
    (hx : x ≠ '（' ∧ x ≠ '【' ∧ x ≠ '〖') (hno : '【' ∉ x :: xs) :
    ∃ r, extractTerms ⟨x :: xs, t⟩ = [r] ∧
      r.Expression =
        ((x :: xs).takeWhile (fun c => decide (c ≠ '（' ∧ c ≠ '【' ∧ c ≠ '〖'))).filter
          (fun c => decide (c ≠ '-' ∧ c ≠ '・')) ∧
      r.Reading = [] := by
  have hx' : notOpen x = true := (notOpen_true x).mpr hx
  have hsec : secondField (xs.dropWhile notOpen) = [] := by
    apply secondField_of_not_mem
    intro hmem
    exact hno (List.mem_cons_of_mem _ ((List.dropWhile_suffix notOpen).subset hmem))
  have hext := extractTerms_some [] x xs t (by simp) hx'
  simp only [List.nil_append] at hext
  rw [hext, hsec, expressionsOf_nil, readingsOf_cons, buildTerms_nil]
  refine ⟨_, rfl, ?_, (mkTerm_fields _ _ _ _).2.1⟩
  rw [(mkTerm_fields _ _ _ _).1, ← notOpen_eq]
  simp [List.takeWhile, hx']

theorem C3_bare_reading_witness :
    ('あ' ≠ '（' ∧ 'あ' ≠ '【' ∧ 'あ' ≠ '〖') ∧ '【' ∉ "あ-い・う（注）".toList ∧
      ∃ r, extractTerms ⟨"あ-い・う（注）".toList, []⟩ = [r] ∧
        r.Expression =
          ("あ-い・う（注）".toList.takeWhile
            (fun c => decide (c ≠ '（' ∧ c ≠ '【' ∧ c ≠ '〖'))).filter
            (fun c => decide (c ≠ '-' ∧ c ≠ '・')) ∧
        r.Reading = [] :=
  ⟨by decide, by decide, C3_bare_reading 'あ' "-い・う（注）".toList [] (by decide) (by decide)⟩

/-- C4: a heading `R【P(Q)S】` with `R` non-empty and free of `（【〖`, and `P`, `Q`,
`S` free of `・ （ ） ( ) 【 】 〖 〗` and line breaks, yields exactly two records, the
variant-inclusive Expression `P ++ Q ++ S` first and the variant-exclusive
`P ++ S` second, both with Reading `R` with every `-` and `・` deleted. -/
theorem C4_variant_pair (R P Q S t : List Char) (hR : R ≠ [])
    (hR2 : ∀ c ∈ R, c ≠ '（' ∧ c ≠ '【' ∧ c ≠ '〖')
    (hP : ∀ c ∈ P, c ∉ special) (hQ : ∀ c ∈ Q, c ∉ special) (hS : ∀ c ∈ S, c ∉ special) :
    ∃ r1 r2,
      extractTerms ⟨R ++ ['【'] ++ P ++ ['('] ++ Q ++ [')'] ++ S ++ ['】'], t⟩ = [r1, r2] ∧
      r1.Expression = P ++ Q ++ S ∧ r2.Expression = P ++ S ∧
      r1.Reading = R.filter (fun c => decide (c ≠ '-' ∧ c ≠ '・')) ∧
      r2.Reading = R.filter (fun c => decide (c ≠ '-' ∧ c ≠ '・')) := by
  cases R with
  | nil => exact absurd rfl hR
  | cons x R =>
    have hx : notOpen x = true := (notOpen_true x).mpr (hR2 x (List.mem_cons_self _ _))
    have hR3 : ∀ c ∈ R, notOpen c = true :=
      fun c hc => (notOpen_true c).mpr (hR2 c (List.mem_cons_of_mem _ hc))
    have hnl : '\n' ∉ P ++ '(' :: Q ++ ')' :: S := by
      simp [not_special P hP, not_special Q hQ, not_special S hS, special]
    have han : '（' ∉ P ++ '(' :: Q ++ ')' :: S := by
      simp [not_special P hP, not_special Q hQ, not_special S hS, special]
    have hdot : '・' ∉ P ++ '(' :: Q ++ ')' :: S := by
      simp [not_special P hP, not_special Q hQ, not_special S hS, special]
    have hext := extractTerms_closed x R (P ++ '(' :: Q ++ ')' :: S) t hx hR3 hnl
    have hexp : expressionsOf (P ++ '(' :: Q ++ ')' :: S) = [P ++ Q ++ S, P ++ S] := by
      rw [expressionsOf_plain _ (by simp) han, Split_of_not_mem _ _ hdot, List.flatMap_cons,
        List.flatMap_nil, List.append_nil,
        expandSplit_variant P Q S (not_special P hP _ (by decide))
          (not_special Q hQ _ (by decide)) (not_special S hS _ (by decide))
          (not_special S hS _ (by decide))]
    rw [hexp, buildTerms_cons] at hext
    simp only [List.cons_append, List.append_assoc, List.nil_append, List.singleton_append]
      at hext ⊢
    rw [hext]
    refine ⟨_, _, rfl, ?_, ?_, ?_, ?_⟩
    · simpa using (mkTerm_fields _ _ _ _).1
    · simpa using (mkTerm_fields _ _ _ _).1
    · exact (mkTerm_fields _ _ _ _).2.1
    · exact (mkTerm_fields _ _ _ _).2.1

theorem C4_variant_pair_witness :
    "たべる".toList ≠ [] ∧ (∀ c ∈ "たべる".toList, c ≠ '（' ∧ c ≠ '【' ∧ c ≠ '〖') ∧
      (∀ c ∈ "食べ".toList, c ∉ special) ∧ (∀ c ∈ "る".toList, c ∉ special) ∧
      ∃ r1 r2,
        extractTerms ⟨"たべる".toList ++ ['【'] ++ "食べ".toList ++ ['('] ++ "る".toList ++ [')']
          ++ [] ++ ['】'], []⟩ = [r1, r2] ∧
        r1.Expression = "食べ".toList ++ "る".toList ++ [] ∧
        r2.Expression = "食べ".toList ++ [] ∧
        r1.Reading = "たべる".toList.filter (fun c => decide (c ≠ '-' ∧ c ≠ '・')) ∧
        r2.Reading = "たべる".toList.filter (fun c => decide (c ≠ '-' ∧ c ≠ '・')) :=
  ⟨by decide, by decide, by decide, by decide,
    C4_variant_pair "たべる".toList "食べ".toList "る".toList [] [] (by decide) (by decide)
      (by decide) (by decide) (by decide)⟩

/-- C5: a heading `R【A・B】` with `R` non-empty and free of `（【〖`, and `A`, `B`
free of `・ （ ） ( ) 【 】 〖 〗` and line breaks, yields exactly two records with
Expressions `A` and `B`, in that order, both with Reading `R` with every `-` and
`・` deleted, and with equal Glossary, Tags and Rules.  (That `A` and `B` are
non-empty is not needed.) -/
theorem C5_two_candidates (R A B t : List Char) (hR : R ≠ [])
    (hR2 : ∀ c ∈ R, c ≠ '（' ∧ c ≠ '【' ∧ c ≠ '〖')
    (hA : ∀ c ∈ A, c ∉ special) (hB : ∀ c ∈ B, c ∉ special) :
    ∃ r1 r2,
      extractTerms ⟨R ++ ['【'] ++ A ++ ['・'] ++ B ++ ['】'], t⟩ = [r1, r2] ∧
      r1.Expression = A ∧ r2.Expression = B ∧
      r1.Reading = R.filter (fun c => decide (c ≠ '-' ∧ c ≠ '・')) ∧
      r2.Reading = R.filter (fun c => decide (c ≠ '-' ∧ c ≠ '・')) ∧
      r1.Glossary = r2.Glossary ∧ r1.Tags = r2.Tags ∧ r1.Rules = r2.Rules := by
  cases R with
  | nil => exact absurd rfl hR
  | cons x R =>
    have hx : notOpen x = true := (notOpen_true x).mpr (hR2 x (List.mem_cons_self _ _))
    have hR3 : ∀ c ∈ R, notOpen c = true :=
      fun c hc => (notOpen_true c).mpr (hR2 c (List.mem_cons_of_mem _ hc))
    have hnl : '\n' ∉ A ++ '・' :: B := by
      simp [not_special A hA, not_special B hB, special]
    have han : '（' ∉ A ++ '・' :: B := by
      simp [not_special A hA, not_special B hB, special]
    have hext := extractTerms_closed x R (A ++ '・' :: B) t hx hR3 hnl
    have hexp : expressionsOf (A ++ '・' :: B) = [A, B] := by
      rw [expressionsOf_plain _ (by simp) han,
        Split_append _ _ _ (not_special A hA _ (by decide)),
        Split_of_not_mem _ _ (not_special B hB _ (by decide))]
      simp [expandSplit_plain A (not_special A hA _ (by decide)),
        expandSplit_plain B (not_special B hB _ (by decide))]
    rw [hexp, buildTerms_cons] at hext
    simp only [List.cons_append, List.append_assoc, List.nil_append, List.singleton_append]
      at hext ⊢
    rw [hext]
    refine ⟨_, _, rfl, ?_, ?_, ?_, ?_, ?_, ?_, ?_⟩
    · exact (mkTerm_fields _ _ _ _).1
    · exact (mkTerm_fields _ _ _ _).1
    · exact (mkTerm_fields _ _ _ _).2.1
    · exact (mkTerm_fields _ _ _ _).2.1
    · rw [(mkTerm_fields _ _ _ _).2.2, (mkTerm_fields _ _ _ _).2.2]
    · exact (mkTerm_class _ _ _ _ _ _).1
    · exact (mkTerm_class _ _ _ _ _ _).2

theorem C5_two_candidates_witness :
    "あ-い".toList ≠ [] ∧ (∀ c ∈ "あ-い".toList, c ≠ '（' ∧ c ≠ '【' ∧ c ≠ '〖') ∧
      (∀ c ∈ "Ａ".toList, c ∉ special) ∧ (∀ c ∈ "Ｂ".toList, c ∉ special) ∧
      ∃ r1 r2,
        extractTerms ⟨"あ-い".toList ++ ['【'] ++ "Ａ".toList ++ ['・'] ++ "Ｂ".toList ++ ['】'],
          "（名）".toList⟩ = [r1, r2] ∧
        r1.Expression = "Ａ".toList ∧ r2.Expression = "Ｂ".toList ∧
        r1.Reading = "あ-い".toList.filter (fun c => decide (c ≠ '-' ∧ c ≠ '・')) ∧
        r2.Reading = "あ-い".toList.filter (fun c => decide (c ≠ '-' ∧ c ≠ '・')) ∧
        r1.Glossary = r2.Glossary ∧ r1.Tags = r2.Tags ∧ r1.Rules = r2.Rules :=
  ⟨by decide, by decide, by decide, by decide,
    C5_two_candidates "あ-い".toList "Ａ".toList "Ｂ".toList "（名）".toList (by decide)
      (by decide) (by decide) (by decide)⟩

/-- C6, as stated, fails: each of the headings "-", "あ【(い)】", "あ【（注）】" and
"あ【・】" yields a record whose Expression is empty. -/
theorem C6_counterexample :
    (∃ r ∈ extractTerms ⟨"-".toList, []⟩, r.Expression = []) ∧
    (∃ r ∈ extractTerms ⟨"あ【(い)】".toList, []⟩, r.Expression = []) ∧
    (∃ r ∈ extractTerms ⟨"あ【（注）】".toList, []⟩, r.Expression = []) ∧
    (∃ r ∈ extractTerms ⟨"あ【・】".toList, []⟩, r.Expression = []) := by
  decide

/-- C6, amended: for a heading on which the grammar matches, every returned
record has a non-empty Expression exactly when (a) with an empty or absent
expression field, the reading field holds a character other than `-` and `・`,
and (b) with a non-empty expression field, every `・`-separated piece of the field
with its `（…）` spans removed is non-empty and does not both begin with `(` and
end with `)`. -/
theorem C6_nonempty_expression_iff (h t : List Char)
    (hm : (FindStringSubmatch partsExp h).isSome = true) :
    (∀ r ∈ extractTerms ⟨h, t⟩, r.Expression ≠ []) ↔
      ((expressionField h = [] → ∃ c ∈ readingField h, c ≠ '-' ∧ c ≠ '・') ∧
       (expressionField h ≠ [] →
          ∀ p ∈ Split '・' (ReplaceAllLiteralString annotExp (expressionField h) []),
            p ≠ [] ∧ ¬ (p.head? = some '(' ∧ p.getLast? = some ')'))) := by
  obtain ⟨-, hnl, hext⟩ := fields_of_match h hm t
  rw [hext, buildTerms_single_nonempty]
  by_cases hE : expressionField h = []
  · simp only [hE, expressionsOf_nil, true_implies, List.not_mem_nil, false_implies,
      implies_true, and_true, ne_eq, not_true_eq_false]
    rw [List.filter_eq_nil_iff]
    simp
  · have hpieces : ∀ p ∈ Split '・' (ReplaceAllLiteralString annotExp (expressionField h) []),
        '\n' ∉ p := by
      intro p hp hc
      exact hnl (replaceLit_delete_subset _ _ _ (Split_subset _ _ p hp _ hc))
    have hes : expressionsOf (expressionField h) =
        (Split '・' (ReplaceAllLiteralString annotExp (expressionField h) [])).flatMap
          expandSplit := by
      simp [expressionsOf, List.length_pos.mpr hE]
    have hne : expressionsOf (expressionField h) ≠ [] := by
      rw [hes]
      cases hs : Split '・' (ReplaceAllLiteralString annotExp (expressionField h) []) with
      | nil => exact absurd hs (Split_ne_nil _ _)
      | cons q qs =>
        cases hq : expandSplit q with
        | nil => exact absurd hq (expandSplit_ne_nil q)
        | cons f fs => simp [hq]
    simp only [hE, hne, false_implies, true_and, ne_eq, not_false_eq_true, true_implies]
    rw [hes]
    simp only [List.mem_flatMap, forall_exists_index, and_imp]
    constructor
    · intro hall p hp
      have := (forms_nonempty_iff p (hpieces p hp)).mp (fun f hf => hall f p hp hf)
      rwa [paren_form_iff] at this
    · intro hall f p hp hf
      have := hall p hp
      rw [← paren_form_iff] at this
      exact (forms_nonempty_iff p (hpieces p hp)).mpr this f hf

theorem C6_nonempty_expression_iff_witness :
    (FindStringSubmatch partsExp "たべ-る【食べ(る)・(お)食べ】".toList).isSome = true ∧
      ∀ r ∈ extractTerms ⟨"たべ-る【食べ(る)・(お)食べ】".toList, "（動バ下一）".toList⟩,
        r.Expression ≠ [] :=
  ⟨by decide,
    (C6_nonempty_expression_iff "たべ-る【食べ(る)・(お)食べ】".toList "（動バ下一）".toList
      (by decide)).mpr ⟨by decide, by decide⟩⟩

/-- C7: every record returned for body text `t` has Glossary `[t]`, and any two
records returned by one call have equal Tags and equal Rules. -/
theorem C7_shared_gloss_and_class (h t : List Char) :
    (∀ r ∈ extractTerms ⟨h, t⟩, r.Glossary = [t]) ∧
      (∀ r1 ∈ extractTerms ⟨h, t⟩, ∀ r2 ∈ extractTerms ⟨h, t⟩,
        r1.Tags = r2.Tags ∧ r1.Rules = r2.Rules) := by
  constructor
  · intro r hr
    obtain ⟨e, rd, rfl⟩ := mem_extractTerms h t r hr
    exact (mkTerm_fields _ _ _ _).2.2
  · intro r1 hr1 r2 hr2
    obtain ⟨e1, rd1, rfl⟩ := mem_extractTerms h t r1 hr1
    obtain ⟨e2, rd2, rfl⟩ := mem_extractTerms h t r2 hr2
    exact mkTerm_class _ _ _ _ _ _

theorem C7_shared_gloss_and_class_witness :
    dbTerm.mk "食べる".toList "たべる".toList ["（動バ下一）".toList]
        ["動バ下一".toList, "v1".toList] ["v1".toList] ∈
      extractTerms ⟨"たべる【食べ(る)】".toList, "（動バ下一）".toList⟩ ∧
    dbTerm.mk "食べ".toList "たべる".toList ["（動バ下一）".toList]
        ["動バ下一".toList, "v1".toList] ["v1".toList] ∈
      extractTerms ⟨"たべる【食べ(る)】".toList, "（動バ下一）".toList⟩ ∧
    (dbTerm.mk "食べる".toList "たべる".toList ["（動バ下一）".toList]
        ["動バ下一".toList, "v1".toList] ["v1".toList]).Glossary = ["（動バ下一）".toList] ∧
    ((dbTerm.mk "食べる".toList "たべる".toList ["（動バ下一）".toList]
        ["動バ下一".toList, "v1".toList] ["v1".toList]).Tags =
      (dbTerm.mk "食べ".toList "たべる".toList ["（動バ下一）".toList]
        ["動バ下一".toList, "v1".toList] ["v1".toList]).Tags ∧
     (dbTerm.mk "食べる".toList "たべる".toList ["（動バ下一）".toList]
        ["動バ下一".toList, "v1".toList] ["v1".toList]).Rules =
      (dbTerm.mk "食べ".toList "たべる".toList ["（動バ下一）".toList]
        ["動バ下一".toList, "v1".toList] ["v1".toList]).Rules) :=
  ⟨by decide, by decide,
    (C7_shared_gloss_and_class "たべる【食べ(る)】".toList "（動バ下一）".toList).1 _ (by decide),
    (C7_shared_gloss_and_class "たべる【食べ(る)】".toList "（動バ下一）".toList).2 _ (by decide) _
      (by decide)⟩

/-- C8: after `exportTags` on a record without tags, a string is a tag exactly
when it occurs among the candidate tokens and equals an entry of the fixed
vocabulary; the other fields of the record are left as they were. -/
theorem C8_vocabulary_filter (e r : List Char) (g rules tags : List (List Char)) (s : List Char) :
    (s ∈ (exportTags (dbTerm.mk e r g [] rules) tags).Tags ↔ (s ∈ tags ∧ s ∈ parsed)) ∧
      (exportTags (dbTerm.mk e r g [] rules) tags).Expression = e ∧
      (exportTags (dbTerm.mk e r g [] rules) tags).Reading = r ∧
      (exportTags (dbTerm.mk e r g [] rules) tags).Glossary = g ∧
      (exportTags (dbTerm.mk e r g [] rules) tags).Rules = rules := by
  refine ⟨?_, exportTags_fields _ tags⟩
  rw [mem_exportTags]
  simp

/-- C9: rule derivation is an ordered first match that does not consult the
vocabulary.  After `exportRules` on a record without rules, a string `s` is a
rule exactly when some candidate token `t` gives it: `adj-i` when `t` is "形";
otherwise `v5` when `t` contains `動c五` or `動cd二`; otherwise `v1` when `t`
contains `動cd一`.  So a token adds at most one rule: "動動五一", which fits both
verb patterns, adds `v5` only, and "動タ五", which is not in the vocabulary, still
adds `v5`. -/
theorem C9_rule_derivation (e r : List Char) (g tg tags : List (List Char)) (s : List Char) :
    (s ∈ (exportRules (dbTerm.mk e r g tg []) tags).Rules ↔ ∃ t ∈ tags,
      (t = "形".toList ∧ s = "adj-i".toList) ∨
      (t ≠ "形".toList ∧ hasFiveGrade t ∧ s = "v5".toList) ∨
      (t ≠ "形".toList ∧ ¬ hasFiveGrade t ∧ hasOneGrade t ∧ s = "v1".toList)) ∧
    (exportRules (dbTerm.mk [] [] [] [] []) ["動動五一".toList]).Rules = ["v5".toList] ∧
    ("動タ五".toList ∉ parsed ∧
      (exportRules (dbTerm.mk [] [] [] [] []) ["動タ五".toList]).Rules = ["v5".toList]) := by
  refine ⟨?_, by decide, by decide, by decide⟩
  rw [mem_exportRules]
  simp only [List.not_mem_nil, false_or]
  refine exists_congr (fun t => and_congr_right (fun _ => ?_))
  have h5 : MatchString v5Exp t = false ↔ ¬ hasFiveGrade t := by
    rw [← matchString_v5Exp]; simp
  rw [matchString_v5Exp, h5, matchString_v1Exp]

/-- C10: classifying the candidate tokens 形 and 動カ五 (`exportTags`, then
`exportRules`, on a record without tags and rules) gives, as sets, the tags
形, 動カ五, adj-i, v5 and the rules adj-i, v5. -/
theorem C10_classify_example (e r : List Char) (g : List (List Char)) (s : List Char) :
    (s ∈ (exportRules (exportTags (dbTerm.mk e r g [] []) ["形".toList, "動カ五".toList])
        ["形".toList, "動カ五".toList]).Tags ↔
      s ∈ ["形".toList, "動カ五".toList, "adj-i".toList, "v5".toList]) ∧
    (s ∈ (exportRules (exportTags (dbTerm.mk e r g [] []) ["形".toList, "動カ五".toList])
        ["形".toList, "動カ五".toList]).Rules ↔
      s ∈ ["adj-i".toList, "v5".toList]) := by
  have key := exportRules_congr _ _ ["形".toList, "動カ五".toList]
    (exportTags_congr (dbTerm.mk e r g [] []) (dbTerm.mk [] [] [] [] [])
      ["形".toList, "動カ五".toList] ⟨rfl, rfl⟩)
  have hT : (exportRules (exportTags (dbTerm.mk [] [] [] [] []) ["形".toList, "動カ五".toList])
      ["形".toList, "動カ五".toList]).Tags =
      ["形".toList, "動カ五".toList, "adj-i".toList, "v5".toList] := by decide
  have hR : (exportRules (exportTags (dbTerm.mk [] [] [] [] []) ["形".toList, "動カ五".toList])
      ["形".toList, "動カ五".toList]).Rules = ["adj-i".toList, "v5".toList] := by decide
  rw [key.1, key.2, hT, hR]
  exact ⟨Iff.rfl, Iff.rfl⟩

/-! ### Tags after rule derivation, and duplicates -/

/-- The tags after `exportRules`: the tags before, and the rule tag of each token. -/
theorem mem_exportRules_tags (s : List Char) :
    ∀ (tags : List (List Char)) (t : dbTerm),
      s ∈ (exportRules t tags).Tags ↔ s ∈ t.Tags ∨ ∃ tag ∈ tags,
        (tag = "形".toList ∧ s = "adj-i".toList) ∨
        (tag ≠ "形".toList ∧ MatchString v5Exp tag = true ∧ s = "v5".toList) ∨
        (tag ≠ "形".toList ∧ MatchString v5Exp tag = false ∧ MatchString v1Exp tag = true ∧
          s = "v1".toList) := by
  intro tags
  induction tags with
  | nil => intro t; simp [exportRules]
  | cons tag tags ih =>
    intro t
    have hstep : exportRules t (tag :: tags) =
        exportRules
          (if tag = "形".toList then (t.addTags "adj-i".toList).addRules "adj-i".toList
           else if MatchString v5Exp tag then (t.addTags "v5".toList).addRules "v5".toList
           else if MatchString v1Exp tag then (t.addTags "v1".toList).addRules "v1".toList
           else t) tags := rfl
    rw [hstep, ih]
    simp only [List.mem_cons, exists_eq_or_imp]
    rw [← or_assoc]
    refine or_congr_left ?_
    by_cases h1 : tag = "形".toList
    · rw [if_pos h1]
      simp only [dbTerm.addRules, dbTerm.addTags, mem_appendStringUnique, h1, ne_eq,
        not_true_eq_false, false_and, or_false, true_and]
    · rw [if_neg h1]
      by_cases h2 : MatchString v5Exp tag = true
      · rw [if_pos h2]
        simp only [dbTerm.addRules, dbTerm.addTags, mem_appendStringUnique, h1, h2, ne_eq,
          not_false_eq_true, false_and, true_and, false_or, Bool.true_eq_false, or_false]
      · rw [if_neg h2]
        have h2f : MatchString v5Exp tag = false := by simpa using h2
        by_cases h3 : MatchString v1Exp tag = true
        · rw [if_pos h3]
          simp only [dbTerm.addRules, dbTerm.addTags, mem_appendStringUnique, h1, h2f, h3, ne_eq,
            not_false_eq_true, false_and, true_and, false_or, Bool.false_eq_true]
        · rw [if_neg h3]
          have h3f : MatchString v1Exp tag = false := by simpa using h3
          simp only [h1, h2f, h3f, false_and, and_false, or_false, false_or,
            Bool.false_eq_true]

theorem appendStringUnique_nodup (l : List (List Char)) (x : List Char) (h : l.Nodup) :
    (appendStringUnique l x).Nodup := by
  unfold appendStringUnique
  by_cases hx : x ∈ l
  · simpa [hx] using h
  · simp only [hx, if_false]
    rw [List.nodup_append]
    refine ⟨h, by simp, ?_⟩
    intro a ha hb
    simp only [List.mem_singleton] at hb
    subst hb
    exact hx ha

theorem exportTags_nodup (term : dbTerm) (tags : List (List Char))
    (h : term.Tags.Nodup ∧ term.Rules.Nodup) :
    (exportTags term tags).Tags.Nodup ∧ (exportTags term tags).Rules.Nodup := by
  unfold exportTags
  refine foldl_inv (fun t => t.Tags.Nodup ∧ t.Rules.Nodup) _ ?_ tags term h
  intro t tag ht
  refine foldl_inv (fun t => t.Tags.Nodup ∧ t.Rules.Nodup) _ ?_ parsed t ht
  intro t p ht
  beta_reduce
  split_ifs
  · exact ⟨appendStringUnique_nodup _ _ ht.1, ht.2⟩
  · exact ht

theorem exportRules_nodup (term : dbTerm) (tags : List (List Char))
    (h : term.Tags.Nodup ∧ term.Rules.Nodup) :
    (exportRules term tags).Tags.Nodup ∧ (exportRules term tags).Rules.Nodup := by
  unfold exportRules
  refine foldl_inv (fun t => t.Tags.Nodup ∧ t.Rules.Nodup) _ ?_ tags term h
  intro t tag ht
  beta_reduce
  split_ifs
  · exact ⟨appendStringUnique_nodup _ _ ht.1, appendStringUnique_nodup _ _ ht.2⟩
  · exact ⟨appendStringUnique_nodup _ _ ht.1, appendStringUnique_nodup _ _ ht.2⟩
  · exact ⟨appendStringUnique_nodup _ _ ht.1, appendStringUnique_nodup _ _ ht.2⟩
  · exact ht

theorem mkTerm_nodup (e r text : List Char) (tags : List (List Char)) :
    (mkTerm e r text tags).Tags.Nodup ∧ (mkTerm e r text tags).Rules.Nodup := by
  unfold mkTerm
  exact exportRules_nodup _ tags (exportTags_nodup _ tags ⟨List.nodup_nil, List.nodup_nil⟩)

/-! ### The record builder with one reading -/

theorem buildTerms_single_ne_nil (es : List (List Char)) (rd text : List Char)
    (tags : List (List Char)) : buildTerms es [rd] text tags ≠ [] := by
  cases es with
  | nil => simp [buildTerms_nil]
  | cons e es => simp [buildTerms_cons]

theorem buildTerms_single_map (es : List (List Char)) (rd text : List Char)
    (tags : List (List Char)) (h : es ≠ []) :
    (buildTerms es [rd] text tags).map dbTerm.Expression = es := by
  cases es with
  | nil => exact absurd rfl h
  | cons e es =>
    rw [buildTerms_cons]
    generalize e :: es = l
    induction l with
    | nil => rfl
    | cons a l ih =>
      simp only [List.flatMap_cons, List.map_cons, List.map_nil, List.singleton_append,
        List.cons.injEq]
      exact ⟨(mkTerm_fields _ _ _ _).1, ih⟩

theorem buildTerms_single_length (es : List (List Char)) (rd text : List Char)
    (tags : List (List Char)) :
    (buildTerms es [rd] text tags).length = max 1 es.length := by
  cases es with
  | nil => simp [buildTerms_nil]
  | cons e es =>
    have h := congrArg List.length (buildTerms_single_map (e :: es) rd text tags (by simp))
    rw [List.length_map] at h
    rw [h]
    simp

/-- The two records of a heading `R【A・B】` with plain candidates. -/
theorem extractTerms_candidates (x : Char) (R A B t : List Char) (hx : notOpen x = true)
    (hR : ∀ c ∈ R, notOpen c = true) (hA : ∀ c ∈ A, c ∉ special) (hB : ∀ c ∈ B, c ∉ special) :
    extractTerms ⟨x :: R ++ '【' :: (A ++ '・' :: B) ++ ['】'], t⟩ =
      [mkTerm A ((x :: R).filter (fun c => decide (c ≠ '-' ∧ c ≠ '・'))) t (tagsOf t),
       mkTerm B ((x :: R).filter (fun c => decide (c ≠ '-' ∧ c ≠ '・'))) t (tagsOf t)] := by
  have hnl : '\n' ∉ A ++ '・' :: B := by
    simp [not_special A hA, not_special B hB, special]
  have han : '（' ∉ A ++ '・' :: B := by
    simp [not_special A hA, not_special B hB, special]
  have hexp : expressionsOf (A ++ '・' :: B) = [A, B] := by
    rw [expressionsOf_plain _ (by simp) han,
      Split_append _ _ _ (not_special A hA _ (by decide)),
      Split_of_not_mem _ _ (not_special B hB _ (by decide))]
    simp [expandSplit_plain A (not_special A hA _ (by decide)),
      expandSplit_plain B (not_special B hB _ (by decide))]
  rw [extractTerms_closed x R (A ++ '・' :: B) t hx hR hnl, hexp, buildTerms_cons]
  rfl

/-! ### Index expressions -/

theorem tagsOf_eq (text : List Char) : tagsOf text = (Split '\n' text).flatMap lineTags := rfl

theorem index_range_map (m : Nat → List Char) (n i : Nat) (h : i < n) :
    index ((List.range n).map m) i = some (m i) := by
  simp [index, h, List.getD_eq_getElem?_getD]

theorem index_submatch_parts (h : List Char) (sl : List (List Char))
    (hs : submatchSlice partsExp h = some sl) :
    ∃ m, FindStringSubmatch partsExp h = some m ∧ sl.length = 5 ∧
      index sl 1 = some (m 1) ∧ index sl 2 = some (m 2) := by
  unfold submatchSlice at hs
  cases hm : FindStringSubmatch partsExp h with
  | none => simp [hm] at hs
  | some m =>
    simp only [hm, Option.map_some', Option.some.injEq] at hs
    subst hs
    have hn : NumSubexp partsExp + 1 = 5 := rfl
    rw [hn]
    exact ⟨m, rfl, by simp, index_range_map m 5 1 (by decide), index_range_map m 5 2 (by decide)⟩

theorem tagsOfChecked_step (split : List Char) (tags : List (List Char)) :
    (match submatchSlice annotExp split with
      | some m => (index m 1).map (fun g => tags ++ Split '・' g)
      | none => some tags) = some (tags ++ lineTags split) := by
  unfold submatchSlice lineTags
  cases hm : FindStringSubmatch annotExp split with
  | none => simp
  | some m =>
    have hn : NumSubexp annotExp + 1 = 2 := rfl
    simp only [Option.map_some', hn, index_range_map m 2 1 (by decide)]

theorem tagsOfChecked_fold (lines : List (List Char)) :
    ∀ (acc : List (List Char)),
      lines.foldl
        (fun acc split =>
          acc.bind (fun tags =>
            match submatchSlice annotExp split with
            | some m => (index m 1).map (fun g => tags ++ Split '・' g)
            | none => some tags))
        (some acc) = some (acc ++ lines.flatMap lineTags) := by
  induction lines with
  | nil => intro acc; simp
  | cons l ls ih =>
    intro acc
    rw [List.foldl_cons, Option.some_bind, tagsOfChecked_step, ih]
    simp

theorem tagsOfChecked_eq (text : List Char) : tagsOfChecked text = some (tagsOf text) := by
  unfold tagsOfChecked
  rw [tagsOfChecked_fold, tagsOf_eq]
  rfl

/-! ### One greedy span: from the first opening to the last closing bracket -/

theorem Split_no_sep (sep : Char) :
    ∀ (s p : List Char), p ∈ Split sep s → sep ∉ p := by
  intro s
  induction s with
  | nil => intro p hp; simp [Split] at hp; subst hp; simp
  | cons x xs ih =>
    intro p hp
    by_cases hx : x = sep
    · simp only [Split, hx, if_true, List.mem_cons] at hp
      rcases hp with rfl | hp
      · simp
      · exact ih p hp
    · cases hs : Split sep xs with
      | nil => exact absurd hs (Split_ne_nil sep xs)
      | cons q qs =>
        simp only [Split, hx, if_false, hs, List.mem_cons] at hp
        rcases hp with rfl | hp
        · simp only [List.mem_cons, not_or]
          exact ⟨Ne.symm hx, ih q (by simp [hs])⟩
        · exact ih p (by simp [hs, hp])

/-- A pattern `a(.*)b` on `pre a mid b post`, with no `a` in `pre`, no line break
in `mid` and no `b` in `post`: the match is the whole span. -/
theorem search_bracketed_span (a : Char) (k : Nat) (b : Char) (hb : b ≠ '\n')
    (pre mid post : List Char) (hpre : a ∉ pre) (hmid : '\n' ∉ mid) (hpost : b ∉ post) :
    search (bracketed a k b) (pre ++ a :: (mid ++ b :: post)) =
      some { pre := pre, whole := a :: mid ++ [b], post := post, caps := noCaps.set k mid } := by
  have hc : closers b post = [] :=
    closers_eq_nil b hb post (fun hm => hpost ((List.takeWhile_sublist _).subset hm))
  exact search_bracketed_some a k b pre (mid ++ b :: post) mid post hpre
    (closers_head b post hc mid hmid)

theorem replaceLit_span (a : Char) (k : Nat) (b : Char) (hb : b ≠ '\n')
    (pre mid post : List Char) (hpre : a ∉ pre) (hmid : '\n' ∉ mid) (hpost : b ∉ post) :
    ReplaceAllLiteralString (bracketed a k b) (pre ++ a :: (mid ++ b :: post)) [] =
      pre ++ post := by
  unfold ReplaceAllLiteralString
  rw [replaceLoop_once _ _ _ _ _ _ (search_bracketed_span a k b hb pre mid post hpre hmid hpost)
    (by simp) (search_bracketed_none_of_close a k b hb post hpost)]
  simp

theorem lineTags_of_search_none (line : List Char) (h : search annotExp line = none) :
    lineTags line = [] := by
  simp [lineTags, FindStringSubmatch, h]

theorem lineTags_of_search_some (line pre whole post mid : List Char)
    (h : search annotExp line =
      some { pre := pre, whole := whole, post := post, caps := noCaps.set 1 mid }) :
    lineTags line = Split '・' mid := by
  simp [lineTags, FindStringSubmatch, h, Caps.set]

theorem lineTags_span (pre mid post : List Char) (hpre : '（' ∉ pre) (hmid : '\n' ∉ mid)
    (hpost : '）' ∉ post) :
    lineTags (pre ++ '（' :: (mid ++ '）' :: post)) = Split '・' mid := by
  apply lineTags_of_search_some _ pre ('（' :: mid ++ ['）']) post mid
  rw [annotExp_eq]
  exact search_bracketed_span '（' 1 '）' (by decide) pre mid post hpre hmid hpost

theorem tagsOf_line (line : List Char) (h : '\n' ∉ line) : tagsOf line = lineTags line := by
  rw [tagsOf_eq, Split_of_not_mem _ _ h]
  simp

/-- The two surface forms of a candidate `pre ( mid ) post` whose first `(` and
last `)` are the ones shown. -/
theorem expandSplit_span (pre mid post : List Char) (hpre : '(' ∉ pre) (hmid : '\n' ∉ mid)
    (hpost : ')' ∉ post) :
    expandSplit (pre ++ '(' :: (mid ++ ')' :: post)) = [pre ++ mid ++ post, pre ++ post] := by
  have hs := search_bracketed_span '(' 1 ')' (by decide) pre mid post hpre hmid hpost
  have hrest : search (bracketed '(' 1 ')') post = none :=
    search_bracketed_none_of_close '(' 1 ')' (by decide) post hpost
  have hinc : ReplaceAllString variantExp (pre ++ '(' :: (mid ++ ')' :: post)) [.ref 1]
      = pre ++ mid ++ post := by
    unfold ReplaceAllString
    rw [variantExp_eq, replaceLoop_once _ _ _ _ _ _ hs (by simp) hrest]
    simp [expand, Caps.set]
  have hexc : ReplaceAllLiteralString variantExp (pre ++ '(' :: (mid ++ ')' :: post)) []
      = pre ++ post := by
    rw [variantExp_eq]
    exact replaceLit_span '(' 1 ')' (by decide) pre mid post hpre hmid hpost
  have hne : pre ++ '(' :: (mid ++ ')' :: post) ≠ pre ++ mid ++ post := by
    intro e
    have := congrArg List.length e
    simp at this
    omega
  unfold expandSplit
  simp only [hinc, hexc]
  rw [if_pos hne]

/-! ### Where the fields of a record come from -/

theorem mem_buildTerms_single (es : List (List Char)) (rd text : List Char)
    (tags : List (List Char)) (x : dbTerm) (hx : x ∈ buildTerms es [rd] text tags) :
    (es = [] ∧ x = mkTerm rd [] text tags) ∨ (∃ e ∈ es, x = mkTerm e rd text tags) := by
  cases es with
  | nil =>
    left
    simpa [buildTerms_nil] using hx
  | cons e es =>
    right
    rw [buildTerms_cons] at hx
    simp only [List.map_cons, List.map_nil, List.mem_flatMap, List.mem_singleton] at hx
    exact hx

/-- The surface forms of a candidate without line break are made of characters
of the candidate. -/
theorem expandSplit_subset (p : List Char) (hnl : '\n' ∉ p) :
    ∀ f ∈ expandSplit p, ∀ c ∈ f, c ∈ p := by
  rcases expandSplit_line p hnl with ⟨he, -⟩ | ⟨pre, mid, post, rfl, -, -, he⟩
  · rw [he]
    intro f hf c hc
    simp only [List.mem_singleton] at hf
    subst hf
    exact hc
  · rw [he]
    intro f hf c hc
    simp only [List.mem_cons, List.mem_singleton, List.not_mem_nil, or_false] at hf
    rcases hf with rfl | rfl
    · simp only [List.mem_append, List.mem_cons] at hc ⊢
      tauto
    · simp only [List.mem_append, List.mem_cons] at hc ⊢
      tauto

/-- An expression form holds no `・`. -/
theorem expressionsOf_no_sep (E : List Char) (hnl : '\n' ∉ E) :
    ∀ e ∈ expressionsOf E, '・' ∉ e := by
  intro e he
  unfold expressionsOf at he
  by_cases hlen : 0 < E.length
  · rw [if_pos hlen] at he
    simp only [List.mem_flatMap] at he
    obtain ⟨p, hp, hf⟩ := he
    have hpnl : '\n' ∉ p := fun hc =>
      hnl (replaceLit_delete_subset _ _ _ (Split_subset _ _ p hp _ hc))
    intro hc
    exact Split_no_sep '・' _ p hp (expandSplit_subset p hpnl e hf _ hc)
  · rw [if_neg hlen] at he
    simp at he

/-- The rules of a token do not depend on the other fields of the record. -/
theorem classify_rules_fresh (e r : List Char) (g toks : List (List Char)) :
    (exportRules (exportTags (dbTerm.mk e r g [] []) toks) toks).Rules =
      (exportRules (exportTags (dbTerm.mk [] [] [] [] []) toks) toks).Rules :=
  (exportRules_congr _ _ toks
    (exportTags_congr (dbTerm.mk e r g [] []) (dbTerm.mk [] [] [] [] []) toks ⟨rfl, rfl⟩)).2

/-- C11: tag classification does not depend on the order of the candidate
tokens.  For a token list and any permutation of it, `exportTags` followed by
`exportRules` on a record without tags and rules gives the same set of Tags and
the same set of Rules. -/
theorem C11_order_independent (e r : List Char) (g l1 l2 : List (List Char))
    (hp : l1.Perm l2) (s : List Char) :
    (s ∈ (exportRules (exportTags (dbTerm.mk e r g [] []) l1) l1).Tags ↔
      s ∈ (exportRules (exportTags (dbTerm.mk e r g [] []) l2) l2).Tags) ∧
    (s ∈ (exportRules (exportTags (dbTerm.mk e r g [] []) l1) l1).Rules ↔
      s ∈ (exportRules (exportTags (dbTerm.mk e r g [] []) l2) l2).Rules) := by
  have hex : ∀ (P : List Char → Prop), (∃ tag ∈ l1, P tag) ↔ (∃ tag ∈ l2, P tag) := by
    intro P
    constructor
    · rintro ⟨tag, ht, h⟩; exact ⟨tag, hp.mem_iff.mp ht, h⟩
    · rintro ⟨tag, ht, h⟩; exact ⟨tag, hp.mem_iff.mpr ht, h⟩
  constructor
  · rw [mem_exportRules_tags, mem_exportRules_tags, mem_exportTags, mem_exportTags,
      hp.mem_iff, hex]
  · rw [mem_exportRules, mem_exportRules, (exportTags_fields _ l1).2.2.2,
      (exportTags_fields _ l2).2.2.2, hex]

theorem C11_order_independent_witness :
    ["動カ五".toList, "形".toList, "名".toList].Perm ["名".toList, "動カ五".toList, "形".toList] ∧
    (exportRules (exportTags (dbTerm.mk [] [] [] [] [])
        ["動カ五".toList, "形".toList, "名".toList])
        ["動カ五".toList, "形".toList, "名".toList]).Tags ≠
      (exportRules (exportTags (dbTerm.mk [] [] [] [] [])
        ["名".toList, "動カ五".toList, "形".toList])
        ["名".toList, "動カ五".toList, "形".toList]).Tags ∧
    (("v5".toList ∈ (exportRules (exportTags (dbTerm.mk [] [] [] [] [])
        ["動カ五".toList, "形".toList, "名".toList])
        ["動カ五".toList, "形".toList, "名".toList]).Tags ↔
      "v5".toList ∈ (exportRules (exportTags (dbTerm.mk [] [] [] [] [])
        ["名".toList, "動カ五".toList, "形".toList])
        ["名".toList, "動カ五".toList, "形".toList]).Tags) ∧
     ("v5".toList ∈ (exportRules (exportTags (dbTerm.mk [] [] [] [] [])
        ["動カ五".toList, "形".toList, "名".toList])
        ["動カ五".toList, "形".toList, "名".toList]).Rules ↔
      "v5".toList ∈ (exportRules (exportTags (dbTerm.mk [] [] [] [] [])
        ["名".toList, "動カ五".toList, "形".toList])
        ["名".toList, "動カ五".toList, "形".toList]).Rules)) :=
  ⟨by decide, by decide,
    C11_order_independent [] [] [] ["動カ五".toList, "形".toList, "名".toList]
      ["名".toList, "動カ五".toList, "形".toList] (by decide) "v5".toList⟩

/-- C12: in every record returned by `extractTerms`, neither Tags nor Rules
holds the same string twice (with `addTags` and `addRules` adding a string only
when it is absent). -/
theorem C12_no_duplicates (h t : List Char) :
    ∀ r ∈ extractTerms ⟨h, t⟩, r.Tags.Nodup ∧ r.Rules.Nodup := by
  intro r hr
  obtain ⟨e, rd, rfl⟩ := mem_extractTerms h t r hr
  exact mkTerm_nodup _ _ _ _

theorem C12_no_duplicates_witness :
    dbTerm.mk "あ".toList [] ["（動マ特活・動マ特活・形・形・動カ五・動ガ五）".toList]
        ["動マ特活".toList, "形".toList, "動カ五".toList, "動ガ五".toList, "adj-i".toList,
          "v5".toList]
        ["adj-i".toList, "v5".toList] ∈
      extractTerms ⟨"あ".toList, "（動マ特活・動マ特活・形・形・動カ五・動ガ五）".toList⟩ ∧
    ((dbTerm.mk "あ".toList [] ["（動マ特活・動マ特活・形・形・動カ五・動ガ五）".toList]
        ["動マ特活".toList, "形".toList, "動カ五".toList, "動ガ五".toList, "adj-i".toList,
          "v5".toList]
        ["adj-i".toList, "v5".toList]).Tags.Nodup ∧
     (dbTerm.mk "あ".toList [] ["（動マ特活・動マ特活・形・形・動カ五・動ガ五）".toList]
        ["動マ特活".toList, "形".toList, "動カ五".toList, "動ガ五".toList, "adj-i".toList,
          "v5".toList]
        ["adj-i".toList, "v5".toList]).Rules.Nodup) :=
  ⟨by decide,
    C12_no_duplicates "あ".toList "（動マ特活・動マ特活・形・形・動カ五・動ガ五）".toList _
      (by decide)⟩

/-- C13: on a heading on which the grammar matches, the reading list has
exactly one element; the records are one per expression form, in the order of
the expression list and with multiplicity, or exactly one record when there is
no expression form.  Nothing is deduplicated: a heading `R【A・A】` yields the
same record twice. -/
theorem C13_record_multiplicity (h t : List Char)
    (hm : (FindStringSubmatch partsExp h).isSome = true) :
    (readingsOf (readingField h)).length = 1 ∧
    (expressionsOf (expressionField h) = [] → (extractTerms ⟨h, t⟩).length = 1) ∧
    (expressionsOf (expressionField h) ≠ [] →
      (extractTerms ⟨h, t⟩).map dbTerm.Expression = expressionsOf (expressionField h)) ∧
    (extractTerms ⟨h, t⟩).length = max 1 (expressionsOf (expressionField h)).length ∧
    (∀ R A : List Char, R ≠ [] → (∀ c ∈ R, c ≠ '（' ∧ c ≠ '【' ∧ c ≠ '〖') →
      (∀ c ∈ A, c ∉ special) →
      ∃ r, extractTerms ⟨R ++ ['【'] ++ A ++ ['・'] ++ A ++ ['】'], t⟩ = [r, r]) := by
  obtain ⟨hr, -, hext⟩ := fields_of_match h hm t
  refine ⟨?_, ?_, ?_, ?_, ?_⟩
  · cases hrd : readingField h with
    | nil => exact absurd hrd hr
    | cons x xs => rw [readingsOf_cons]; rfl
  · intro he
    rw [hext, buildTerms_single_length, he]
    rfl
  · intro he
    rw [hext, buildTerms_single_map _ _ _ _ he]
  · rw [hext, buildTerms_single_length]
  · intro R A hR hR2 hA
    cases R with
    | nil => exact absurd rfl hR
    | cons x R =>
      have hx : notOpen x = true := (notOpen_true x).mpr (hR2 x (List.mem_cons_self _ _))
      have hR3 : ∀ c ∈ R, notOpen c = true :=
        fun c hc => (notOpen_true c).mpr (hR2 c (List.mem_cons_of_mem _ hc))
      have := extractTerms_candidates x R A A t hx hR3 hA hA
      simp only [List.cons_append, List.append_assoc, List.nil_append, List.singleton_append]
        at this ⊢
      exact ⟨_, this⟩

theorem C13_record_multiplicity_witness :
    (FindStringSubmatch partsExp "たべる【食べ(る)・食べ・食べ】".toList).isSome = true ∧
    (extractTerms ⟨"たべる【食べ(る)・食べ・食べ】".toList, []⟩).map dbTerm.Expression =
      ["食べる".toList, "食べ".toList, "食べ".toList, "食べ".toList] ∧
    (extractTerms ⟨"たべる【食べ(る)・食べ・食べ】".toList, []⟩).length =
      max 1 (expressionsOf (expressionField "たべる【食べ(る)・食べ・食べ】".toList)).length :=
  ⟨by decide,
    ((C13_record_multiplicity "たべる【食べ(る)・食べ・食べ】".toList [] (by decide)).2.2.1
      (by decide)).trans (by decide),
    (C13_record_multiplicity "たべる【食べ(る)・食べ・食べ】".toList [] (by decide)).2.2.2.1⟩

/-- C14: the table of `getFontNarrow` maps code 49441 to "á" and has no entry
for code 999999 (the lookup reports not-found). -/
theorem C14_narrow_lookup :
    lookup getFontNarrow 49441 = some "á".toList ∧ lookup getFontNarrow 999999 = none := by
  decide

/-- C15: `extractTerms` is total and no index expression is out of range: the
slice of a heading match has five elements, so `matches[1]` and `matches[2]`
exist, the slice of a body-line match has two, so `matches[1]` exists, and the
call with every index checked returns the record list. -/
theorem C15_total_no_index_fault (h t : List Char) :
    extractTermsChecked ⟨h, t⟩ = some (extractTerms ⟨h, t⟩) ∧
    (∀ sl, submatchSlice partsExp h = some sl → sl.length = 5) ∧
    (∀ line sl, submatchSlice annotExp line = some sl → sl.length = 2) := by
  refine ⟨?_, ?_, ?_⟩
  · unfold extractTermsChecked extractTerms
    cases hs : submatchSlice partsExp h with
    | none =>
      have hm : FindStringSubmatch partsExp h = none := by
        cases hm : FindStringSubmatch partsExp h with
        | none => rfl
        | some m => simp [submatchSlice, hm] at hs
      simp [hm]
    | some sl =>
      obtain ⟨m, hm, -, h1, h2⟩ := index_submatch_parts h sl hs
      simp [hm, h1, h2, tagsOfChecked_eq]
  · intro sl hs
    obtain ⟨m, -, hl, -, -⟩ := index_submatch_parts h sl hs
    exact hl
  · intro line sl hs
    unfold submatchSlice at hs
    cases hm : FindStringSubmatch annotExp line with
    | none => simp [hm] at hs
    | some m =>
      simp only [hm, Option.map_some', Option.some.injEq] at hs
      subst hs
      have hn : NumSubexp annotExp + 1 = 2 := rfl
      rw [hn]
      simp

theorem C15_total_no_index_fault_witness :
    extractTermsChecked ⟨"たべる【食べ(る)】（注）".toList, "（動バ下一）".toList⟩ =
      some (extractTerms ⟨"たべる【食べ(る)】（注）".toList, "（動バ下一）".toList⟩) ∧
    submatchSlice partsExp "たべる【食べ(る)】（注）".toList =
      some ["たべる【食べ(る)】（注）".toList, "たべる".toList, "食べ(る)".toList, [], "注".toList] ∧
    ["たべる【食べ(る)】（注）".toList, "たべる".toList, "食べ(る)".toList, [],
      "注".toList].length = 5 :=
  ⟨(C15_total_no_index_fault "たべる【食べ(る)】（注）".toList "（動バ下一）".toList).1, by decide,
    (C15_total_no_index_fault "たべる【食べ(る)】（注）".toList "（動バ下一）".toList).2.1 _
      (by decide)⟩

/-- C16, as stated, fails: on the body line "（名）x（形）" one match is taken, from
the first `（` to the last `）`, so the only candidate token is "名）x（形"; neither
名 nor 形 is a token and the record carries no tag. -/
theorem C16_counterexample :
    tagsOf "（名）x（形）".toList = ["名）x（形".toList] ∧
    "名".toList ∉ tagsOf "（名）x（形）".toList ∧ "形".toList ∉ tagsOf "（名）x（形）".toList ∧
    extractTerms ⟨"あ".toList, "（名）x（形）".toList⟩ =
      [dbTerm.mk "あ".toList [] ["（名）x（形）".toList] [] []] := by
  decide

/-- C16, amended: on a body line `u（a）v（b）w` without line break, with no `（` in
`u` and no `）` in `w`, one match is taken, from the first `（` to the last `）`, and
the candidate tokens are the `・`-separated parts of the text between the two,
`a）v（b` taken as one string. -/
theorem C16_one_greedy_annotation (u a v b w : List Char)
    (hline : '\n' ∉ u ++ ['（'] ++ a ++ ['）'] ++ v ++ ['（'] ++ b ++ ['）'] ++ w)
    (hu : '（' ∉ u) (hw : '）' ∉ w) :
    tagsOf (u ++ ['（'] ++ a ++ ['）'] ++ v ++ ['（'] ++ b ++ ['）'] ++ w) =
      Split '・' (a ++ ['）'] ++ v ++ ['（'] ++ b) := by
  rw [tagsOf_line _ hline]
  have hmid : '\n' ∉ a ++ ['）'] ++ v ++ ['（'] ++ b := by
    intro hm
    apply hline
    simp only [List.mem_append, List.mem_singleton] at hm ⊢
    tauto
  have := lineTags_span u (a ++ ['）'] ++ v ++ ['（'] ++ b) w hu hmid hw
  simpa using this

theorem C16_one_greedy_annotation_witness :
    '\n' ∉ [] ++ ['（'] ++ "名・副".toList ++ ['）'] ++ "x".toList ++ ['（'] ++ "形".toList ++ ['）']
      ++ "y".toList ∧
    tagsOf ([] ++ ['（'] ++ "名・副".toList ++ ['）'] ++ "x".toList ++ ['（'] ++ "形".toList ++ ['）']
      ++ "y".toList) =
      Split '・' ("名・副".toList ++ ['）'] ++ "x".toList ++ ['（'] ++ "形".toList) :=
  ⟨by decide,
    C16_one_greedy_annotation [] "名・副".toList "x".toList "形".toList "y".toList (by decide)
      (by decide) (by decide)⟩

/-- C17, as stated, fails: for the heading "あ【Ａ（x）・Ｂ（y）】" the annotation
pattern matches once, from the first `（` to the last `）`, so "（x）・Ｂ（y）" is
removed as a whole and the only Expression is "Ａ". -/
theorem C17_counterexample :
    (extractTerms ⟨"あ【Ａ（x）・Ｂ（y）】".toList, []⟩).map dbTerm.Expression = ["Ａ".toList] ∧
    ReplaceAllLiteralString annotExp "Ａ（x）・Ｂ（y）".toList [] = "Ａ".toList := by
  decide

/-- C17, amended: for a heading `R【A（x）・B（y）】` with `R` non-empty and free of
`（【〖`, and `A`, `B`, `x`, `y` free of `・ （ ） ( ) 【 】 〖 〗` and line breaks, the
annotation pattern matches once, from the first `（` to the last `）`; everything
from `（x` to `y）` is removed and exactly one record is returned, with Expression
`A` and Reading `R` with every `-` and `・` deleted. -/
theorem C17_greedy_strip (R A B x y t : List Char) (hR : R ≠ [])
    (hR2 : ∀ c ∈ R, c ≠ '（' ∧ c ≠ '【' ∧ c ≠ '〖')
    (hA : ∀ c ∈ A, c ∉ special) (hB : ∀ c ∈ B, c ∉ special)
    (hx : ∀ c ∈ x, c ∉ special) (hy : ∀ c ∈ y, c ∉ special) :
    ∃ r,
      extractTerms ⟨R ++ ['【'] ++ A ++ ['（'] ++ x ++ ['）'] ++ ['・'] ++ B ++ ['（'] ++ y
        ++ ['）'] ++ ['】'], t⟩ = [r] ∧
      r.Expression = A ∧ r.Reading = R.filter (fun c => decide (c ≠ '-' ∧ c ≠ '・')) := by
  cases R with
  | nil => exact absurd rfl hR
  | cons z R =>
    have hz : notOpen z = true := (notOpen_true z).mpr (hR2 z (List.mem_cons_self _ _))
    have hR3 : ∀ c ∈ R, notOpen c = true :=
      fun c hc => (notOpen_true c).mpr (hR2 c (List.mem_cons_of_mem _ hc))
    have hmid : '\n' ∉ x ++ '）' :: '・' :: (B ++ '（' :: y) := by
      simp [not_special B hB, not_special x hx, not_special y hy, special]
    have hnl : '\n' ∉ A ++ '（' :: ((x ++ '）' :: '・' :: (B ++ '（' :: y)) ++ '）' :: []) := by
      simp [not_special A hA, not_special B hB, not_special x hx, not_special y hy, special]
    have hstrip := replaceLit_span '（' 1 '）' (by decide) A
      (x ++ '）' :: '・' :: (B ++ '（' :: y)) [] (not_special A hA _ (by decide)) hmid (by simp)
    have hexp : expressionsOf (A ++ '（' :: ((x ++ '）' :: '・' :: (B ++ '（' :: y)) ++ '）' :: []))
        = [A] := by
      have hlen : 0 < (A ++ '（' :: ((x ++ '）' :: '・' :: (B ++ '（' :: y)) ++ '）' :: [])).length :=
        by simp
      unfold expressionsOf
      rw [if_pos hlen, annotExp_eq, hstrip, List.append_nil,
        Split_of_not_mem _ _ (not_special A hA _ (by decide))]
      simp [expandSplit_plain A (not_special A hA _ (by decide))]
    have hext := extractTerms_closed z R _ t hz hR3 hnl
    rw [hexp, buildTerms_cons] at hext
    simp only [List.cons_append, List.append_assoc, List.nil_append, List.singleton_append]
      at hext ⊢
    rw [hext]
    exact ⟨_, rfl, (mkTerm_fields _ _ _ _).1, (mkTerm_fields _ _ _ _).2.1⟩

theorem C17_greedy_strip_witness :
    "あ-い".toList ≠ [] ∧ (∀ c ∈ "あ-い".toList, c ≠ '（' ∧ c ≠ '【' ∧ c ≠ '〖') ∧
    (∀ c ∈ "Ａ".toList, c ∉ special) ∧ (∀ c ∈ "Ｂ".toList, c ∉ special) ∧
    (∀ c ∈ "x".toList, c ∉ special) ∧ (∀ c ∈ "y".toList, c ∉ special) ∧
    ∃ r,
      extractTerms ⟨"あ-い".toList ++ ['【'] ++ "Ａ".toList ++ ['（'] ++ "x".toList ++ ['）'] ++ ['・']
        ++ "Ｂ".toList ++ ['（'] ++ "y".toList ++ ['）'] ++ ['】'], []⟩ = [r] ∧
      r.Expression = "Ａ".toList ∧
      r.Reading = "あ-い".toList.filter (fun c => decide (c ≠ '-' ∧ c ≠ '・')) :=
  ⟨by decide, by decide, by decide, by decide, by decide, by decide,
    C17_greedy_strip "あ-い".toList "Ａ".toList "Ｂ".toList "x".toList "y".toList [] (by decide)
      (by decide) (by decide) (by decide) (by decide) (by decide)⟩

/-- C18: an expression candidate `c` without line break contributes two forms,
the variant-inclusive one and then the variant-exclusive one, exactly when `c`
holds a `(` followed somewhere later by a `)`, and otherwise the single form `c`;
the variant-inclusive form differs from `c` exactly in the first case.  With the
first `(` and the last `)` of `c` singled out, the two forms are `c` without these
two brackets and `c` without the whole span. -/
theorem C18_variant_forms (c : List Char) (hnl : '\n' ∉ c) :
    (ReplaceAllString variantExp c [.ref 1] ≠ c ↔
      ∃ pre mid post, c = pre ++ ['('] ++ mid ++ [')'] ++ post) ∧
    ((∃ pre mid post, c = pre ++ ['('] ++ mid ++ [')'] ++ post) →
      expandSplit c =
        [ReplaceAllString variantExp c [.ref 1], ReplaceAllLiteralString variantExp c []]) ∧
    ((¬ ∃ pre mid post, c = pre ++ ['('] ++ mid ++ [')'] ++ post) → expandSplit c = [c]) ∧
    (∀ pre mid post, c = pre ++ ['('] ++ mid ++ [')'] ++ post → '(' ∉ pre → ')' ∉ post →
      expandSplit c = [pre ++ mid ++ post, pre ++ post]) := by
  have hform : ∀ pre mid post : List Char,
      pre ++ ['('] ++ mid ++ [')'] ++ post = pre ++ '(' :: mid ++ ')' :: post := by
    intro pre mid post; simp
  have hdef : expandSplit c =
      if c ≠ ReplaceAllString variantExp c [.ref 1] then
        [ReplaceAllString variantExp c [.ref 1], ReplaceAllLiteralString variantExp c []]
      else [ReplaceAllString variantExp c [.ref 1]] := rfl
  simp only [hform]
  rcases expandSplit_line c hnl with ⟨he, hno⟩ | ⟨pre, mid, post, hc, hpre, hpost, he⟩
  · have hinc : ReplaceAllString variantExp c [.ref 1] = c := by
      by_cases hne : c ≠ ReplaceAllString variantExp c [.ref 1]
      · rw [hdef, if_pos hne] at he
        simp at he
      · exact (not_not.mp hne).symm
    refine ⟨?_, ?_, ?_, ?_⟩
    · constructor
      · intro h; exact absurd hinc h
      · intro h; exact absurd h hno
    · intro h; exact absurd h hno
    · intro _; exact he
    · intro pre mid post h _ _
      exact absurd ⟨pre, mid, post, h⟩ hno
  · have hne : c ≠ ReplaceAllString variantExp c [.ref 1] := by
      intro heq
      rw [hdef, if_neg (not_not.mpr heq)] at he
      simp at he
    have hex : ∃ pre mid post, c = pre ++ '(' :: mid ++ ')' :: post := ⟨pre, mid, post, hc⟩
    have hpair : expandSplit c =
        [ReplaceAllString variantExp c [.ref 1], ReplaceAllLiteralString variantExp c []] := by
      rw [hdef, if_pos hne]
    refine ⟨?_, ?_, ?_, ?_⟩
    · exact ⟨fun _ => hex, fun _ => Ne.symm hne⟩
    · intro _; exact hpair
    · intro h; exact absurd hex h
    · intro pre' mid' post' hc' hpre' hpost'
      have hmid' : '\n' ∉ mid' := by
        intro hm
        apply hnl
        rw [hc']
        simp [hm]
      have := expandSplit_span pre' mid' post' hpre' hmid' hpost'
      simp only [List.append_assoc, List.cons_append] at this hc'
      rw [hc']
      simpa using this

theorem C18_variant_forms_witness :
    '\n' ∉ "食べ(る)".toList ∧
    (ReplaceAllString variantExp "食べ(る)".toList [.ref 1] ≠ "食べ(る)".toList ↔
      ∃ pre mid post, "食べ(る)".toList = pre ++ ['('] ++ mid ++ [')'] ++ post) ∧
    expandSplit "食べ(る)".toList = ["食べ".toList ++ "る".toList ++ [], "食べ".toList ++ []] :=
  ⟨by decide, (C18_variant_forms "食べ(る)".toList (by decide)).1,
    (C18_variant_forms "食べ(る)".toList (by decide)).2.2.2 "食べ".toList "る".toList [] rfl
      (by decide) (by decide)⟩

/-- C19: `extractTerms` returns the empty list exactly when the heading holds no
character outside `（【〖` (the empty heading included); every other heading,
whatever its brackets, yields at least one record. -/
theorem C19_exact_skip_condition (h t : List Char) :
    extractTerms ⟨h, t⟩ = [] ↔ ∀ c ∈ h, c = '（' ∨ c = '【' ∨ c = '〖' := by
  constructor
  · intro he
    rcases split_first notOpen h with hall | ⟨B, x, xs, rfl, hB, hx⟩
    · exact fun c hc => (notOpen_false c).mp (hall c hc)
    · rw [extractTerms_some B x xs t hB hx, readingsOf_cons] at he
      exact absurd he (buildTerms_single_ne_nil _ _ _ _)
  · intro hall
    have hm : FindStringSubmatch partsExp h = none :=
      find_partsExp_none h (fun c hc => (notOpen_false c).mpr (hall c hc))
    simp [extractTerms, hm]

/-- C20: the candidate tokens of a body are those of its lines, the pieces of
the body split on the line break.  A line holding a `（` followed later by a `）`
contributes the `・`-separated pieces of the text strictly between its first `（`
and its last `）`, one match in all; any other line contributes no token. -/
theorem C20_line_tokens (text : List Char) :
    tagsOf text = (Split '\n' text).flatMap lineTags ∧
    ∀ line ∈ Split '\n' text,
      (∃ pre mid post, line = pre ++ ['（'] ++ mid ++ ['）'] ++ post ∧ '（' ∉ pre ∧ '）' ∉ post ∧
        lineTags line = Split '・' mid) ∨
      ((¬ ∃ pre mid post, line = pre ++ ['（'] ++ mid ++ ['）'] ++ post) ∧ lineTags line = []) := by
  refine ⟨tagsOf_eq text, ?_⟩
  intro line hline
  have hform : ∀ pre mid post : List Char,
      pre ++ ['（'] ++ mid ++ ['）'] ++ post = pre ++ '（' :: mid ++ '）' :: post := by
    intro pre mid post; simp
  simp only [hform]
  have hnl : '\n' ∉ line := Split_no_sep '\n' text line hline
  rcases search_bracketed_line '（' 1 '）' (by decide) line hnl with
    ⟨hs, hno⟩ | ⟨pre, mid, post, hc, hpre, hpost, hs⟩
  · right
    exact ⟨hno, lineTags_of_search_none line (by rw [annotExp_eq]; exact hs)⟩
  · left
    refine ⟨pre, mid, post, hc, hpre, hpost, ?_⟩
    exact lineTags_of_search_some line pre _ post mid (by rw [annotExp_eq]; exact hs)

theorem C20_line_tokens_witness :
    "x（名・副）y（形）z".toList ∈ Split '\n' "あ）い（\nx（名・副）y（形）z".toList ∧
    lineTags "x（名・副）y（形）z".toList = ["名".toList, "副）y（形".toList] ∧
    ((∃ pre mid post, "x（名・副）y（形）z".toList = pre ++ ['（'] ++ mid ++ ['）'] ++ post ∧
        '（' ∉ pre ∧ '）' ∉ post ∧
        lineTags "x（名・副）y（形）z".toList = Split '・' mid) ∨
      ((¬ ∃ pre mid post, "x（名・副）y（形）z".toList = pre ++ ['（'] ++ mid ++ ['）'] ++ post) ∧
        lineTags "x（名・副）y（形）z".toList = [])) :=
  ⟨by decide, by decide,
    (C20_line_tokens "あ）い（\nx（名・副）y（形）z".toList).2 _ (by decide)⟩

/-- C21: in every record returned by `extractTerms`, every rule is also a tag and
is one of "adj-i", "v5", "v1", and every tag is an entry of the vocabulary or one
of "adj-i", "v5", "v1". -/
theorem C21_rules_within_tags (h t : List Char) :
    ∀ r ∈ extractTerms ⟨h, t⟩,
      (∀ s ∈ r.Rules, s ∈ r.Tags ∧ s ∈ ["adj-i".toList, "v5".toList, "v1".toList]) ∧
      (∀ s ∈ r.Tags, s ∈ parsed ∨ s ∈ ["adj-i".toList, "v5".toList, "v1".toList]) := by
  intro r hr
  obtain ⟨e, rd, rfl⟩ := mem_extractTerms h t r hr
  have hname : ∀ (s : List Char), (∃ tag ∈ tagsOf t,
      (tag = "形".toList ∧ s = "adj-i".toList) ∨
      (tag ≠ "形".toList ∧ MatchString v5Exp tag = true ∧ s = "v5".toList) ∨
      (tag ≠ "形".toList ∧ MatchString v5Exp tag = false ∧ MatchString v1Exp tag = true ∧
        s = "v1".toList)) → s ∈ ["adj-i".toList, "v5".toList, "v1".toList] := by
    rintro s ⟨tag, -, ⟨-, rfl⟩ | ⟨-, -, rfl⟩ | ⟨-, -, -, rfl⟩⟩ <;> simp
  unfold mkTerm
  constructor
  · intro s hs
    rw [mem_exportRules, (exportTags_fields _ _).2.2.2] at hs
    rcases hs with hs | hs
    · simp at hs
    · exact ⟨(mem_exportRules_tags s _ _).mpr (Or.inr hs), hname s hs⟩
  · intro s hs
    rw [mem_exportRules_tags, mem_exportTags] at hs
    rcases hs with (hs | ⟨-, hs⟩) | hs
    · simp at hs
    · exact Or.inl hs
    · exact Or.inr (hname s hs)

theorem C21_rules_within_tags_witness :
    dbTerm.mk "あ".toList [] ["（形・動タ五・動カ上一・x）".toList]
        ["形".toList, "動カ上一".toList, "adj-i".toList, "v5".toList, "v1".toList]
        ["adj-i".toList, "v5".toList, "v1".toList] ∈
      extractTerms ⟨"あ".toList, "（形・動タ五・動カ上一・x）".toList⟩ ∧
    ((∀ s ∈ ["adj-i".toList, "v5".toList, "v1".toList],
        s ∈ ["形".toList, "動カ上一".toList, "adj-i".toList, "v5".toList, "v1".toList] ∧
        s ∈ ["adj-i".toList, "v5".toList, "v1".toList]) ∧
     (∀ s ∈ ["形".toList, "動カ上一".toList, "adj-i".toList, "v5".toList, "v1".toList],
        s ∈ parsed ∨ s ∈ ["adj-i".toList, "v5".toList, "v1".toList])) :=
  ⟨by decide,
    C21_rules_within_tags "あ".toList "（形・動タ五・動カ上一・x）".toList
      (dbTerm.mk "あ".toList [] ["（形・動タ五・動カ上一・x）".toList]
        ["形".toList, "動カ上一".toList, "adj-i".toList, "v5".toList, "v1".toList]
        ["adj-i".toList, "v5".toList, "v1".toList]) (by decide)⟩

/-- C22: in every record returned by `extractTerms`, the Reading holds neither
`-` nor `・` and the Expression holds no `・`. -/
theorem C22_no_markers (h t : List Char) :
    ∀ r ∈ extractTerms ⟨h, t⟩,
      '-' ∉ r.Reading ∧ '・' ∉ r.Reading ∧ '・' ∉ r.Expression := by
  intro r hr
  have hm : (FindStringSubmatch partsExp h).isSome = true := by
    cases hf : FindStringSubmatch partsExp h with
    | none => simp [extractTerms, hf] at hr
    | some m => rfl
  obtain ⟨-, hnl, hext⟩ := fields_of_match h hm t
  rw [hext] at hr
  have hrd : ∀ c, c = '-' ∨ c = '・' →
      c ∉ (readingField h).filter (fun c => decide (c ≠ '-' ∧ c ≠ '・')) := by
    intro c hc hmem
    simp only [List.mem_filter, decide_eq_true_eq] at hmem
    rcases hc with rfl | rfl
    · exact hmem.2.1 rfl
    · exact hmem.2.2 rfl
  rcases mem_buildTerms_single _ _ _ _ r hr with ⟨-, rfl⟩ | ⟨e, he, rfl⟩
  · rw [(mkTerm_fields _ _ _ _).1, (mkTerm_fields _ _ _ _).2.1]
    exact ⟨by simp, by simp, hrd _ (Or.inr rfl)⟩
  · rw [(mkTerm_fields _ _ _ _).1, (mkTerm_fields _ _ _ _).2.1]
    exact ⟨hrd _ (Or.inl rfl), hrd _ (Or.inr rfl), expressionsOf_no_sep _ hnl e he⟩

theorem C22_no_markers_witness :
    dbTerm.mk "食べ".toList "たべる".toList [[]] [] [] ∈
      extractTerms ⟨"た-べ・る【食べ(る)・食】".toList, []⟩ ∧
    ('-' ∉ (dbTerm.mk "食べ".toList "たべる".toList [[]] [] []).Reading ∧
     '・' ∉ (dbTerm.mk "食べ".toList "たべる".toList [[]] [] []).Reading ∧
     '・' ∉ (dbTerm.mk "食べ".toList "たべる".toList [[]] [] []).Expression) :=
  ⟨by decide,
    C22_no_markers "た-べ・る【食べ(る)・食】".toList []
      (dbTerm.mk "食べ".toList "たべる".toList [[]] [] []) (by decide)⟩

/-- C23: for an entry `t` of the vocabulary, classifying the single token `t`
(`exportTags`, then `exportRules`, on a record without tags and rules) derives the
rule adj-i exactly when `t` is "形", the rule v1 exactly when `t` ends in 一, the
rule v5 exactly when `t` ends in 二 or holds 五 and is not "動五［四］", and no other
rule.  So the two-grade entry "動カ下二" gets the five-grade rule v5, and
"動五［四］" gets no rule. -/
theorem C23_vocabulary_rules (e r : List Char) (g : List (List Char)) :
    ∀ t ∈ parsed,
      ("adj-i".toList ∈ (exportRules (exportTags (dbTerm.mk e r g [] []) [t]) [t]).Rules ↔
        t = "形".toList) ∧
      ("v1".toList ∈ (exportRules (exportTags (dbTerm.mk e r g [] []) [t]) [t]).Rules ↔
        t.getLast? = some '一') ∧
      ("v5".toList ∈ (exportRules (exportTags (dbTerm.mk e r g [] []) [t]) [t]).Rules ↔
        (t.getLast? = some '二' ∨ ('五' ∈ t ∧ t ≠ "動五［四］".toList))) ∧
      (∀ s ∈ (exportRules (exportTags (dbTerm.mk e r g [] []) [t]) [t]).Rules,
        s = "adj-i".toList ∨ s = "v1".toList ∨ s = "v5".toList) := by
  have key : ∀ t ∈ parsed,
      ("adj-i".toList ∈ (exportRules (exportTags (dbTerm.mk [] [] [] [] []) [t]) [t]).Rules ↔
        t = "形".toList) ∧
      ("v1".toList ∈ (exportRules (exportTags (dbTerm.mk [] [] [] [] []) [t]) [t]).Rules ↔
        t.getLast? = some '一') ∧
      ("v5".toList ∈ (exportRules (exportTags (dbTerm.mk [] [] [] [] []) [t]) [t]).Rules ↔
        (t.getLast? = some '二' ∨ ('五' ∈ t ∧ t ≠ "動五［四］".toList))) ∧
      (∀ s ∈ (exportRules (exportTags (dbTerm.mk [] [] [] [] []) [t]) [t]).Rules,
        s = "adj-i".toList ∨ s = "v1".toList ∨ s = "v5".toList) := by
    decide
  intro t ht
  rw [classify_rules_fresh e r g [t]]
  exact key t ht

theorem C23_vocabulary_rules_witness :
    ("動カ下二".toList ∈ parsed ∧ "動五［四］".toList ∈ parsed) ∧
    ("v5".toList ∈ (exportRules (exportTags (dbTerm.mk [] [] [] [] []) ["動カ下二".toList])
        ["動カ下二".toList]).Rules ↔
      ("動カ下二".toList.getLast? = some '二' ∨
        ('五' ∈ "動カ下二".toList ∧ "動カ下二".toList ≠ "動五［四］".toList))) ∧
    (exportRules (exportTags (dbTerm.mk [] [] [] [] []) ["動カ下二".toList])
        ["動カ下二".toList]).Rules = ["v5".toList] ∧
    (exportRules (exportTags (dbTerm.mk [] [] [] [] []) ["動五［四］".toList])
        ["動五［四］".toList]).Rules = [] :=
  ⟨by decide, (C23_vocabulary_rules [] [] [] "動カ下二".toList (by decide)).2.2.1, by decide,
    by decide⟩

end Daijirin
